import Mathlib

/-!
The FSEvents watch handle of swoval and its consumers.

A shallow embedding of `files/js/npm/src/swoval_apple_file_system.hpp`
(`swoval::handle<T>`, `loop`, `cleanupFunc`) together with the node adapter of
`apple-file-events/js/npm/src/swoval_apple_file_system_api_node.cc`, the JNI adapter of
`files/jvm/src/main/native/apple/com_swoval_files_apple_FileEventMonitorImpl.cc` and the
directory lister of `files/jvm/src/main/native/windows/com_swoval_files_NativeDirectoryLister.cc`.

Every member function of `handle` runs under `handle::mutex`, so each call is one
atomic transition of the handle state.  Calls into CoreServices and into the
consumer callbacks are recorded as a list of `Action`s in program order.
-/

namespace Swoval

/-- Bytes of a `std::string` or of a C string without its terminator. -/
abbrev Path := List Char

/-- The `FSEventStreamRef` returned by `FSEventStreamCreate`. -/
abbrev StreamRef := Nat

/-- The `double latency` argument, passed through to the platform untouched. -/
abbrev Latency := Nat

/-- Source: `typedef std::vector<std::pair<std::string, int32_t>> Events`. -/
abbrev Events := List (Path × Int)

/-- Source: `typedef std::vector<std::string> Strings`. -/
abbrev Strings := List Path

/-- The value type of `stream_handles`: `std::pair<std::string, FSEventStreamRef>`. -/
abbrev StreamValue := Path × StreamRef

/-- The `std::map<int32_t, std::pair<std::string, FSEventStreamRef>>`, as the list of its
entries in iteration order (ascending key). -/
abbrev StreamMap := List (Int × StreamValue)

/-- Largest `int32_t`. -/
def INT32_MAX : Int := 2147483647

/-- Smallest `int32_t`. -/
def INT32_MIN : Int := -2147483648

/-- Two's complement wrap of an integer into the `int32_t` range. -/
def wrapInt32 (x : Int) : Int := (x + 2147483648) % 4294967296 - 2147483648

/-- Calls that leave the handle: CoreServices calls, the diagnostic on `stderr`, and the two
consumer callbacks held by the handle. -/
inductive Action where
  /-- The `fprintf(stderr, ...)` of `startStream` on a stopped handle. -/
  | diagnostic (path : Path)
  /-- Source: `FSEventStreamCreate` followed by `FSEventStreamScheduleWithRunLoop`. -/
  | streamCreate (path : Path) (latency : Latency) (flags : Int) (stream : StreamRef)
  /-- Source: `FSEventStreamStart` and the value it returned. -/
  | streamStart (stream : StreamRef) (ok : Bool)
  /-- The private `stop_stream`: stop, unschedule, invalidate and release the stream. -/
  | stop_stream (stream : StreamRef)
  /-- Source: `CFRunLoopSourceSignal(sourceRef); CFRunLoopWakeUp(runLoop)`. -/
  | sourceSignal
  /-- Source: `CFRunLoopStop(runLoop)`. -/
  | runLoopStop
  /-- Source: `CFRunLoopSourceInvalidate(sourceRef); CFRunLoopRemoveSource(...)`. -/
  | sourceInvalidate
  /-- Source: `h->callback(std::move(events), h, std::move(lock))`. -/
  | callback (events : Events)
  /-- Source: `stop_stream_callback(std::move(strings), this, std::move(lock))`. -/
  | stop_stream_callback (strings : Strings)
  deriving DecidableEq, Repr

/-- The data members of `handle<T>` that the member functions read or write.
`context` is whether the `CFRunLoopSourceContext` pointer is non-null and
`stop_stream_callback` whether that function pointer is non-null. -/
structure Handle where
  context : Bool
  stream_handles : StreamMap
  streams_to_remove : List Int
  started : Bool
  stopped : Bool
  closed : Bool
  stop_stream_callback : Bool
  deriving DecidableEq, Repr

/-- Source: `stream_handles.find(key)`. -/
def mapFind (m : StreamMap) (key : Int) : Option StreamValue :=
  (m.find? (fun e => e.1 == key)).map Prod.snd

/-- Source: `stream_handles.erase(key)`. -/
def mapErase (m : StreamMap) (key : Int) : StreamMap :=
  m.filter (fun e => e.1 != key)

/-- Source: `stream_handles[key] = value`: replaces the value of an existing key, otherwise inserts
the entry at its place in key order. -/
def mapInsert : StreamMap → Int → StreamValue → StreamMap
  | [], key, value => [(key, value)]
  | (k, v) :: rest, key, value =>
    if key < k then (key, value) :: (k, v) :: rest
    else if key = k then (key, value) :: rest
    else (k, v) :: mapInsert rest key value

/-- Source: `!memcmp(stored.data(), path, stored.length())` for a NUL-terminated `path`: the first
`stored.length()` bytes of `path` are those of `stored`.  When `path` is shorter than `stored`
the comparison reaches the terminator of `path`, which no byte of `stored` equals. -/
def memcmpMatches (stored path : Path) : Bool :=
  stored.isPrefixOf path

/-- What `startStream` hands back: the returned `int`, the process-wide `current_id`
afterwards, the handle afterwards and the calls it made. -/
structure StartResult where
  ret : Int
  current_id : Int
  h : Handle
  actions : List Action
  deriving DecidableEq, Repr

/-- Source: `handle::startStream`.  `stream` and `startOk` are what `FSEventStreamCreate` and
`FSEventStreamStart` answer when they are reached.  The result is `none` when the call
waits on `cond` for `started`; what the call does when the wait ends is `startStreamResume`. -/
def startStream (current_id : Int) (h : Handle) (path : Path) (latency : Latency)
    (flags : Int) (stream : StreamRef) (startOk : Bool) : Option StartResult :=
  if h.stopped then
    some ⟨-1, current_id, h, [Action.diagnostic path]⟩
  else if !h.started then
    none
  else
    match h.stream_handles.find? (fun e => memcmpMatches e.2.1 path) with
    | some e => some ⟨e.1, current_id, h, []⟩
    | none =>
      if !startOk then
        some ⟨-1, current_id, h,
          [Action.streamCreate path latency flags stream, Action.streamStart stream false]⟩
      else
        some ⟨current_id, wrapInt32 (current_id + 1),
          { h with stream_handles := mapInsert h.stream_handles current_id (path, stream) },
          [Action.streamCreate path latency flags stream, Action.streamStart stream true,
            Action.sourceSignal]⟩

/-- Source: `handle::startStream` from the return of `cond.wait(lock, started)` on: a call that found
the handle neither stopped nor started has released `mutex` in the wait and goes on, once
`started` is set, with the scan of the registry and the creation of the stream.  `stopped` is
read before the wait only, so `h` here is the handle as the other threads have left it. -/
def startStreamResume (current_id : Int) (h : Handle) (path : Path) (latency : Latency)
    (flags : Int) (stream : StreamRef) (startOk : Bool) : Option StartResult :=
  if !h.started then
    none
  else
    match h.stream_handles.find? (fun e => memcmpMatches e.2.1 path) with
    | some e => some ⟨e.1, current_id, h, []⟩
    | none =>
      if !startOk then
        some ⟨-1, current_id, h,
          [Action.streamCreate path latency flags stream, Action.streamStart stream false]⟩
      else
        some ⟨current_id, wrapInt32 (current_id + 1),
          { h with stream_handles := mapInsert h.stream_handles current_id (path, stream) },
          [Action.streamCreate path latency flags stream, Action.streamStart stream true,
            Action.sourceSignal]⟩

/-- The public `handle::stopStream(int32_t)`; `none` when the call waits for `started`. -/
def stopStream (h : Handle) (stream_key : Int) : Option (Handle × List Action) :=
  if !h.started then
    none
  else if !h.closed then
    some ({ h with streams_to_remove := h.streams_to_remove ++ [stream_key] },
      [Action.sourceSignal])
  else
    some (h, [])

/-- The loop-side `handle::stopStream(int32_t, Lock)`. -/
def stopStreamLocked (h : Handle) (stream_key : Int) : Handle × List Action :=
  if h.stopped then
    (h, [])
  else
    match mapFind h.stream_handles stream_key with
    | some (p, stream) =>
      ({ h with stream_handles := mapErase h.stream_handles stream_key },
        Action.stop_stream stream ::
          (if h.stop_stream_callback then [Action.stop_stream_callback [p]] else []))
    | none =>
      (h, if h.stop_stream_callback then [Action.stop_stream_callback []] else [])

/-- Source: `handle::cleanupRunLoop`. -/
def cleanupRunLoop (h : Handle) : Handle × List Action :=
  ({ h with stream_handles := [], context := false, closed := true },
    [Action.runLoopStop, Action.sourceInvalidate] ++
      h.stream_handles.map (fun e => Action.stop_stream e.2.2))

/-- Source: `lpath.compare(pos1, n1, rpath, pos2, n2) == 0`. -/
def compareEq (lpath : Path) (pos1 n1 : Nat) (rpath : Path) (pos2 n2 : Nat) : Bool :=
  (lpath.drop pos1).take n1 == (rpath.drop pos2).take n2

/-- The body of the inner loop of `cleanupFunc` for `streams[i] = l` and `streams[j] = r`:
the ids it pushes onto `redundant_ids`. -/
def redundantPair (l r : Int × Path) : List Int :=
  if r.2.length > l.2.length then
    if compareEq l.2 0 l.2.length r.2 0 l.2.length then [r.1] else []
  else if compareEq r.2 0 r.2.length l.2 0 r.2.length then [l.1]
  else []

/-- The nested loops of `cleanupFunc` over `i` and `j > i`: `redundant_ids` in push order. -/
def redundantIds : List (Int × Path) → List Int
  | [] => []
  | l :: rest => (rest.map (redundantPair l)).flatten ++ redundantIds rest

/-- The last loop of `cleanupFunc`: for each id still found in `stream_handles`, run the
loop-side `stopStream`. -/
def removeIds : Handle → List Int → Handle × List Action
  | h, [] => (h, [])
  | h, id :: ids =>
    match mapFind h.stream_handles id with
    | some _ =>
      let r := stopStreamLocked h id
      let r2 := removeIds r.1 ids
      (r2.1, r.2 ++ r2.2)
    | none => removeIds h ids

/-- The run loop source callback `cleanupFunc`: teardown on a stopped handle, otherwise one
maintenance pass. -/
def cleanupFunc (h : Handle) : Handle × List Action :=
  if h.stopped then
    cleanupRunLoop h
  else
    let streams := h.stream_handles.map (fun e => (e.1, e.2.1))
    let redundant_ids := redundantIds streams ++ h.streams_to_remove
    removeIds { h with streams_to_remove := [] } redundant_ids

/-- The function `loop` up to `CFRunLoopRun()`: installs the source context and sets
`started`. -/
def loop (h : Handle) : Handle :=
  { h with context := true, started := true }

/-- The caller-side part of `handle::close` before it waits for `closed`; `none` when the
call waits for `started`. -/
def closeRequest (h : Handle) : Option (Handle × List Action) :=
  if !h.started then
    none
  else if !h.closed then
    some ({ h with stopped := true }, [Action.sourceSignal])
  else
    some (h, [])

/-- Source: `handle::close` run to its return: the request, then, unless the handle is closed
already, the `cleanupFunc` the signalled run loop performs, after which the wait for `closed`
ends.  `none` when the call never returns. -/
def close (h : Handle) : Option (Handle × List Action) :=
  match closeRequest h with
  | none => none
  | some (h1, a1) =>
    if h1.closed then
      some (h1, a1)
    else
      let r := cleanupFunc h1
      if r.1.closed then some (r.1, a1 ++ r.2) else none

/-- An `FSEventStreamEventFlags` word (`uint32_t`) stored into the `int32_t` of an event. -/
def flagsToInt32 (f : Nat) : Int :=
  wrapInt32 (Int.ofNat (f % 4294967296))

/-- The vector built by `defaultCallback`: `(paths[i], flags[i])` for `i < count`. -/
def buildEvents (count : Nat) (paths : List Path) (flags : List Nat) : Events :=
  (List.range count).map (fun i => (paths.getD i [], flagsToInt32 (flags.getD i 0)))

/-- Source: `handle::defaultCallback`, the platform callback of every stream. -/
def defaultCallback (h : Handle) (count : Nat) (paths : List Path) (flags : List Nat) :
    List Action :=
  if h.stopped then []
  else [Action.callback (buildEvents count paths flags)]

/-- The process state seen by one handle: the file-scope `static int32_t current_id` and the
handle itself. -/
structure Sys where
  current_id : Int
  h : Handle
  deriving DecidableEq, Repr

/-- The entry points through which a handle is driven: the loop thread starting up, the
public member functions, the run loop source callback, and the platform event callback. -/
inductive Op where
  | loop
  | startStream (path : Path) (latency : Latency) (flags : Int) (stream : StreamRef)
      (startOk : Bool)
  | stopStream (stream_key : Int)
  | cleanupFunc
  | closeRequest
  | close
  | defaultCallback (count : Nat) (paths : List Path) (flags : List Nat)
  deriving DecidableEq, Repr

/-- One entry point run on a process state: the value returned (for `startStream`), the state
afterwards and the calls made.  `none` when the call does not return in this state. -/
def step (s : Sys) : Op → Option (Option Int × Sys × List Action)
  | Op.loop => some (none, { s with h := loop s.h }, [])
  | Op.startStream path latency flags stream startOk =>
    (startStream s.current_id s.h path latency flags stream startOk).map
      (fun r => (some r.ret, ⟨r.current_id, r.h⟩, r.actions))
  | Op.stopStream stream_key =>
    (stopStream s.h stream_key).map (fun r => (none, { s with h := r.1 }, r.2))
  | Op.cleanupFunc =>
    some (none, { s with h := (cleanupFunc s.h).1 }, (cleanupFunc s.h).2)
  | Op.closeRequest =>
    (closeRequest s.h).map (fun r => (none, { s with h := r.1 }, r.2))
  | Op.close =>
    (close s.h).map (fun r => (none, { s with h := r.1 }, r.2))
  | Op.defaultCallback count paths flags =>
    some (none, s, defaultCallback s.h count paths flags)

/-- A sequence of entry points run one after the other: the state after the last and all the
calls made, in order.  `none` when one of the calls does not return. -/
def runOps : Sys → List Op → Option (Sys × List Action)
  | s, [] => some (s, [])
  | s, op :: ops =>
    match step s op with
    | none => none
    | some r =>
      match runOps r.2.1 ops with
      | none => none
      | some x => some (x.1, r.2.2 ++ x.2)

/-- The constructor `handle(T *t, cb, ss)` with the default member initialisers: no context, an
empty registry, an empty pending list and all three flags false. -/
def handle (stop_stream_callback : Bool) : Handle :=
  ⟨false, [], [], false, false, false, stop_stream_callback⟩

/-- The process with several handles: the one file-scope `current_id` and the handles, addressed
by their position. -/
structure Proc where
  current_id : Int
  handles : List Handle
  deriving DecidableEq, Repr

/-- The id a `startStream` call assigned to a stream it created: the value returned by a call
whose `FSEventStreamStart` succeeded. -/
def assignedId (r : Option Int × Sys × List Action) : List Int :=
  match r.1 with
  | some id =>
    if r.2.2.any (fun a => match a with
      | Action.streamStart _ true => true
      | _ => false) then [id] else []
  | none => []

/-- One entry point run on handle number `i` of the process.  `none` when there is no such
handle or the call does not return. -/
def procStep (p : Proc) (i : Nat) (op : Op) : Option (List Int × Proc) :=
  match p.handles[i]? with
  | none => none
  | some h =>
    match step ⟨p.current_id, h⟩ op with
    | none => none
    | some r => some (assignedId r, ⟨r.2.1.current_id, p.handles.set i r.2.1.h⟩)

/-- A sequence of calls, each on the handle it names: the ids assigned to newly created
streams, in order of assignment, and the process state at the end. -/
def procRun : Proc → List (Nat × Op) → Option (List Int × Proc)
  | p, [] => some ([], p)
  | p, c :: cs =>
    match procStep p c.1 c.2 with
    | none => none
    | some r =>
      match procRun r.2 cs with
      | none => none
      | some x => some (r.1 ++ x.1, x.2)

/-- The arguments of one `startStream` call together with the stream the platform creates
for it. -/
structure StartCall where
  path : Path
  latency : Latency
  flags : Int
  stream : StreamRef
  deriving DecidableEq, Repr

/-- Consecutive `startStream` calls, the platform starting every stream it is asked for:
the ids returned in call order, then the counter and the handle at the end. -/
def startStreams : Int → Handle → List StartCall → Option (List Int × Int × Handle)
  | current_id, h, [] => some ([], current_id, h)
  | current_id, h, c :: cs =>
    match startStream current_id h c.path c.latency c.flags c.stream true with
    | none => none
    | some r =>
      match startStreams r.current_id r.h cs with
      | none => none
      | some (ids, cur, hfin) => some (r.ret :: ids, cur, hfin)

/-! ## The node adapter (`swoval_apple_file_system_api_node.cc`) -/

/-- The streams handed to the private `stop_stream`, in call order. -/
def stoppedStreams : List Action → List StreamRef
  | [] => []
  | Action.stop_stream s :: rest => s :: stoppedStreams rest
  | _ :: rest => stoppedStreams rest

/-- The paths carried by the stream-removed notices, in call order. -/
def removalNotices : List Action → List Path
  | [] => []
  | Action.stop_stream_callback strings :: rest => strings ++ removalNotices rest
  | _ :: rest => removalNotices rest

/-- The streams the platform was asked to create, in call order. -/
def createdStreams : List Action → List StreamRef
  | [] => []
  | Action.streamCreate _ _ _ s :: rest => s :: createdStreams rest
  | _ :: rest => createdStreams rest

/-- The paths the platform was asked to create a stream for, in call order. -/
def createdPaths : List Action → List Path
  | [] => []
  | Action.streamCreate p _ _ _ :: rest => p :: createdPaths rest
  | _ :: rest => createdPaths rest

/-- A `std::map` iterates its keys in strictly ascending order. -/
def KeysAscending (m : StreamMap) : Prop :=
  m.Pairwise (fun a b => a.1 < b.1)

/-- Every key of the registry was handed out by the counter before. -/
def KeysBelow (m : StreamMap) (current_id : Int) : Prop :=
  ∀ e ∈ m, e.1 < current_id

instance (m : StreamMap) : Decidable (KeysAscending m) := by
  unfold KeysAscending
  infer_instance

instance (m : StreamMap) (current_id : Int) : Decidable (KeysBelow m current_id) := by
  unfold KeysBelow
  infer_instance

/-- The registry of a process state is a map whose keys the counter has handed out, and the
counter is a value of `int32_t`. -/
def WF (s : Sys) : Prop :=
  INT32_MIN ≤ s.current_id ∧ KeysBelow s.h.stream_handles s.current_id ∧
    KeysAscending s.h.stream_handles

instance (s : Sys) : Decidable (WF s) := by
  unfold WF
  infer_instance

/-! ## The JNI adapter (`com_swoval_files_apple_FileEventMonitorImpl.cc`) -/

/-- Calls made by the JNI adapter on the Java callbacks. -/
inductive JniAction where
  /-- Source: `env->CallVoidMethod(h->data->callback, h->data->callbackApply, event)`. -/
  | callbackApply (path : Path) (flags : Int)
  /-- Source: `env->CallVoidMethod(h->data->pathCallback, h->data->pathCallbackApply, string)`. -/
  | pathCallbackApply (path : Path)
  deriving DecidableEq, Repr

/-- The loop of `jni_callback` over one batch.  `pending` is whether a Java exception is
pending in `env`, which is what `env->ExceptionCheck()` answers; `raises e` is whether the Java
callback throws on event `e`.  The adapter never clears a pending exception. -/
def jniCallbackLoop (raises : Path × Int → Bool) : Bool → Events → Bool × List JniAction
  | pending, [] => (pending, [])
  | pending, e :: rest =>
    let flag := pending || raises e
    if flag then (true, [JniAction.callbackApply e.1 e.2])
    else
      let r := jniCallbackLoop raises false rest
      (r.1, JniAction.callbackApply e.1 e.2 :: r.2)

/-- Source: `jni_callback`: the pending flag afterwards and the calls on the event callback. -/
def jni_callback (raises : Path × Int → Bool) (h : Handle) (pending : Bool)
    (events : Events) : Bool × List JniAction :=
  if !h.stopped then jniCallbackLoop raises pending events else (pending, [])

/-- The loop of `jni_stop_stream` over the removed paths. -/
def jniStopStreamLoop (raises : Path → Bool) : Bool → Strings → Bool × List JniAction
  | pending, [] => (pending, [])
  | pending, p :: rest =>
    let flag := pending || raises p
    if flag then (true, [JniAction.pathCallbackApply p])
    else
      let r := jniStopStreamLoop raises false rest
      (r.1, JniAction.pathCallbackApply p :: r.2)

/-- Source: `jni_stop_stream`: the pending flag afterwards and the calls on the path callback. -/
def jni_stop_stream (raises : Path → Bool) (h : Handle) (pending : Bool)
    (strings : Strings) : Bool × List JniAction :=
  if !h.stopped then jniStopStreamLoop raises pending strings else (pending, [])

/-- The handle calling into the JNI adapter: `callback` is `jni_callback` and
`stop_stream_callback` is `jni_stop_stream`; the other calls do not reach the adapter. -/
def jniDispatch (raises : Path × Int → Bool) (raisesPath : Path → Bool) (h : Handle) :
    Bool → List Action → Bool × List JniAction
  | pending, [] => (pending, [])
  | pending, Action.callback events :: rest =>
    let r := jni_callback raises h pending events
    let r2 := jniDispatch raises raisesPath h r.1 rest
    (r2.1, r.2 ++ r2.2)
  | pending, Action.stop_stream_callback strings :: rest =>
    let r := jni_stop_stream raisesPath h pending strings
    let r2 := jniDispatch raises raisesPath h r.1 rest
    (r2.1, r.2 ++ r2.2)
  | pending, _ :: rest => jniDispatch raises raisesPath h pending rest

/-- One platform callback arriving at a JNI handle: `defaultCallback` and the `jni_callback`
it calls.  A batch is `(count, paths, flags)`. -/
def jniEventBatch (raises : Path × Int → Bool) (h : Handle) (pending : Bool)
    (b : Nat × List Path × List Nat) : Bool × List JniAction :=
  jniDispatch raises (fun _ => false) h pending (defaultCallback h b.1 b.2.1 b.2.2)

/-- Consecutive platform callbacks arriving at a JNI handle. -/
def jniEventBatches (raises : Path × Int → Bool) (h : Handle) :
    Bool → List (Nat × List Path × List Nat) → Bool × List JniAction
  | pending, [] => (pending, [])
  | pending, b :: bs =>
    let r := jniEventBatch raises h pending b
    let r2 := jniEventBatches raises h r.1 bs
    (r2.1, r.2 ++ r2.2)

/-- The calls on the two consumer callbacks among the calls of a handle, in order. -/
def sinkCalls : List Action → List Action
  | [] => []
  | Action.callback events :: rest => Action.callback events :: sinkCalls rest
  | Action.stop_stream_callback strings :: rest =>
    Action.stop_stream_callback strings :: sinkCalls rest
  | _ :: rest => sinkCalls rest

/-! ## The locks around the Java callbacks -/

/-- The two mutexes of a handle: `mutex` and `runloop_mutex`. -/
inductive Mutex where
  | mutex
  | runloop_mutex
  deriving DecidableEq, Repr

/-- What the loop thread does with the locks and the Java callbacks, in program order. -/
inductive LockEvent where
  /-- A `Lock` constructed on a mutex, as in `Lock lock(h->mutex)`. -/
  | acquire (m : Mutex)
  /-- A `Lock` that owns a mutex is unlocked or destroyed. -/
  | release (m : Mutex)
  /-- A `CallVoidMethod` on one of the Java callbacks. -/
  | sink (a : JniAction)
  deriving DecidableEq, Repr

/-- Source: `defaultCallback` with `jni_callback` installed: `Lock lock(h->runloop_mutex)`, then on
a stopped handle the return, which destroys `lock`, and otherwise
`h->callback(std::move(events), h, std::move(lock))`: the parameter `Lock lock` of
`jni_callback` owns the mutex until `jni_callback` returns. -/
def defaultCallbackLocks (raises : Path × Int → Bool) (h : Handle) (pending : Bool)
    (b : Nat × List Path × List Nat) : List LockEvent :=
  LockEvent.acquire Mutex.runloop_mutex ::
    ((jniEventBatch raises h pending b).2.map LockEvent.sink ++
      [LockEvent.release Mutex.runloop_mutex])

/-- Source: `cleanupFunc` with `jni_stop_stream` installed: `Lock lock(h->mutex)` and
`Lock runloopLock(h->runloop_mutex)`.  On a stopped handle `cleanupRunLoop` takes `runloopLock`
and destroys it on return, and `lock.unlock()` follows.  Otherwise every
`lock = h->stopStream(it->first, std::move(lock))` hands the lock on `mutex` through
`jni_stop_stream` and gets it back, `lock.unlock()` follows the loop, and `runloopLock` is
destroyed on return. -/
def cleanupFuncLocks (raisesPath : Path → Bool) (h : Handle) (pending : Bool) :
    List LockEvent :=
  [LockEvent.acquire Mutex.mutex, LockEvent.acquire Mutex.runloop_mutex] ++
    (if h.stopped then
      [LockEvent.release Mutex.runloop_mutex, LockEvent.release Mutex.mutex]
    else
      (jniDispatch (fun _ => false) raisesPath h pending (cleanupFunc h).2).2.map LockEvent.sink
        ++ [LockEvent.release Mutex.mutex, LockEvent.release Mutex.runloop_mutex])

/-- Every call on a Java callback together with the locks the thread holds while it makes the
call, the most recently taken first; `held` are the locks held at the start. -/
def sinkCallsHeld : List Mutex → List LockEvent → List (JniAction × List Mutex)
  | _, [] => []
  | held, LockEvent.acquire m :: rest => sinkCallsHeld (m :: held) rest
  | held, LockEvent.release m :: rest => sinkCallsHeld (held.erase m) rest
  | held, LockEvent.sink a :: rest => (a, held) :: sinkCallsHeld held rest

/-! ## The Windows directory lister (`windows/com_swoval_files_NativeDirectoryLister.cc`) -/

namespace NativeDirectoryLister

/-- The fields of `WIN32_FIND_DATAW` that the lister reads. -/
structure WIN32_FIND_DATAW where
  dwFileAttributes : Nat
  cFileName : List Char
  deriving DecidableEq, Repr

/-- A search handle of the platform: the entries the search has not handed out yet, in the
order in which it hands them out, and the code `GetLastError` reports when `FindNextFileW`
finds no further entry. -/
structure Search where
  remaining : List WIN32_FIND_DATAW
  lastError : Int
  deriving DecidableEq, Repr

/-- The Windows error code `ERROR_SUCCESS`. -/
def ERROR_SUCCESS : Int := 0

/-- The Windows error code `ERROR_INVALID_HANDLE`. -/
def ERROR_INVALID_HANDLE : Int := 6

/-- Source: `struct Handle`; `handle` is `none` for `INVALID_HANDLE_VALUE`. -/
structure Handle where
  ffd : WIN32_FIND_DATAW
  handle : Option Search
  first : Bool
  err : Int
  deriving DecidableEq, Repr

/-- Source: `FindNextFileW(handle, &ffd)`: whether it succeeded, the search and the find data
afterwards, and the code `GetLastError` reports after a failure. -/
def FindNextFileW (handle : Option Search) (ffd : WIN32_FIND_DATAW) :
    Bool × Option Search × WIN32_FIND_DATAW × Int :=
  match handle with
  | none => (false, none, ffd, ERROR_INVALID_HANDLE)
  | some s =>
    match s.remaining with
    | [] => (false, some s, ffd, s.lastError)
    | e :: rest => (true, some { s with remaining := rest }, e, ERROR_SUCCESS)

/-- Source: `Java_com_swoval_files_NativeDirectoryLister_openDir`.  `alloc` is the content of the
fresh allocation; `found` is what `FindFirstFileExW` answers, the first entry and the search
handle, or `none` for `INVALID_HANDLE_VALUE`, in which case `lastError` is what `GetLastError`
reports. -/
def openDir (alloc : WIN32_FIND_DATAW) (found : Option (WIN32_FIND_DATAW × Search))
    (lastError : Int) : Handle :=
  match found with
  | some (e, s) => ⟨e, some s, true, ERROR_SUCCESS⟩
  | none => ⟨alloc, none, true, lastError⟩

/-- Source: `Java_com_swoval_files_NativeDirectoryLister_nextFile`: the value returned, `none` for 0
and otherwise the find data that `&handle->ffd` points to, and the handle afterwards. -/
def nextFile (h : Handle) : Option WIN32_FIND_DATAW × Handle :=
  if h.first then
    (some h.ffd, { h with first := false })
  else
    let r := FindNextFileW h.handle h.ffd
    if !r.1 then
      (none, { h with handle := r.2.1, ffd := r.2.2.1, err := r.2.2.2 })
    else
      (some r.2.2.1, { h with handle := r.2.1, ffd := r.2.2.1 })

/-- Consecutive `nextFile` calls: the values returned, in call order, and the handle at the
end. -/
def nextFiles : Nat → Handle → List (Option WIN32_FIND_DATAW) × Handle
  | 0, h => ([], h)
  | n + 1, h =>
    let r := nextFile h
    let r2 := nextFiles n r.2
    (r.1 :: r2.1, r2.2)

end NativeDirectoryLister

/-! ## Helper lemmas -/

theorem wrapInt32_succ (c : Int) (hlo : INT32_MIN ≤ c) (hhi : c < INT32_MAX) :
    wrapInt32 (c + 1) = c + 1 := by
  unfold wrapInt32
  unfold INT32_MIN at hlo
  unfold INT32_MAX at hhi
  omega

theorem mapInsert_keysBelow (m : StreamMap) (key : Int) (value : StreamValue)
    (hk : KeysBelow m key) : mapInsert m key value = m ++ [(key, value)] := by
  induction m with
  | nil => rfl
  | cons e rest ih =>
    obtain ⟨k, v⟩ := e
    have hlt : k < key := hk (k, v) (List.mem_cons_self _ _)
    have hrest : KeysBelow rest key := fun x hx => hk x (List.mem_cons_of_mem _ hx)
    have h1 : ¬ key < k := by omega
    have h2 : ¬ key = k := by omega
    simp [mapInsert, h1, h2, ih hrest]

theorem mapFind_eq_none_iff (m : StreamMap) (key : Int) :
    mapFind m key = none ↔ ∀ e ∈ m, e.1 ≠ key := by
  simp [mapFind, List.find?_eq_none]

theorem mapFind_keysBelow (m : StreamMap) (key : Int) (hk : KeysBelow m key) :
    mapFind m key = none := by
  rw [mapFind_eq_none_iff]
  intro e he heq
  have := hk e he
  omega

theorem find_memcmp_none (m : StreamMap) (path : Path)
    (hp : ∀ e ∈ m, ¬ e.2.1 <+: path) :
    m.find? (fun e => memcmpMatches e.2.1 path) = none := by
  rw [List.find?_eq_none]
  intro e he
  simpa [memcmpMatches] using hp e he

/-! ## C2, C8, C9: single calls of `startStream` -/

/-- C2: on a handle on which close has completed (`stopped` and `closed` set), `startStream`
returns -1 for every path, latency and flags; its only call is the diagnostic on `stderr`, so
no platform stream is requested; and the handle (registry, pending-removal list, lifecycle
flags) and the id counter are what they were. -/
theorem startStream_on_closed_handle (current_id : Int) (h : Handle) (path : Path)
    (latency : Latency) (flags : Int) (stream : StreamRef) (startOk : Bool)
    (hstopped : h.stopped = true) (_hclosed : h.closed = true) :
    ∃ r, startStream current_id h path latency flags stream startOk = some r ∧
      r.ret = -1 ∧ r.actions = [Action.diagnostic path] ∧ createdStreams r.actions = [] ∧
      r.h = h ∧ r.h.stream_handles = h.stream_handles ∧
      r.h.streams_to_remove = h.streams_to_remove ∧ r.current_id = current_id := by
  refine ⟨⟨-1, current_id, h, [Action.diagnostic path]⟩, ?_, rfl, rfl, rfl, rfl, rfl,
    rfl, rfl⟩
  simp [startStream, hstopped]

theorem startStream_on_closed_handle_witness :
    (⟨false, [], [4], true, true, true, true⟩ : Handle).stopped = true ∧
    ∃ r, startStream 3 ⟨false, [], [4], true, true, true, true⟩ "/x".toList 1 2 9 true = some r ∧
      r.ret = -1 ∧ r.current_id = 3 :=
  ⟨rfl, by
    obtain ⟨r, hr, hret, _, _, _, _, _, hcur⟩ :=
      startStream_on_closed_handle 3 ⟨false, [], [4], true, true, true, true⟩ "/x".toList 1 2 9
        true rfl rfl
    exact ⟨r, hr, hret, hcur⟩⟩

/-- C9: on a started, non-stopped handle, a `startStream` call for which `FSEventStreamStart`
reports failure leaves the handle (registry, pending-removal list, lifecycle flags) and the
id counter unchanged; the platform is asked exactly when no registered path matches, and then
the call returns -1. -/
theorem startStream_platform_failure (current_id : Int) (h : Handle) (path : Path)
    (latency : Latency) (flags : Int) (stream : StreamRef)
    (hstarted : h.started = true) (hrunning : h.stopped = false) :
    ∃ r, startStream current_id h path latency flags stream false = some r ∧
      r.h = h ∧ r.current_id = current_id ∧
      (Action.streamStart stream false ∈ r.actions ↔
        h.stream_handles.find? (fun e => memcmpMatches e.2.1 path) = none) ∧
      (Action.streamStart stream false ∈ r.actions → r.ret = -1) := by
  cases hfind : h.stream_handles.find? (fun e => memcmpMatches e.2.1 path) with
  | none =>
    refine ⟨⟨-1, current_id, h,
      [Action.streamCreate path latency flags stream, Action.streamStart stream false]⟩,
      ?_, rfl, rfl, ?_, fun _ => rfl⟩
    · simp [startStream, hstarted, hrunning, hfind]
    · simp
  | some e =>
    refine ⟨⟨e.1, current_id, h, []⟩, ?_, rfl, rfl, ?_, ?_⟩
    · simp [startStream, hstarted, hrunning, hfind]
    · simp
    · intro hmem
      simp at hmem

theorem startStream_platform_failure_witness :
    ∃ r, startStream 5 ⟨true, [(2, "/a".toList, 7)], [], true, false, false, true⟩
        "/b".toList 1 2 9 false = some r ∧
      r.h = ⟨true, [(2, "/a".toList, 7)], [], true, false, false, true⟩ ∧ r.current_id = 5 ∧
      (Action.streamStart 9 false ∈ r.actions ↔
        (⟨true, [(2, "/a".toList, 7)], [], true, false, false, true⟩ :
          Handle).stream_handles.find? (fun e => memcmpMatches e.2.1 "/b".toList) = none) ∧
      (Action.streamStart 9 false ∈ r.actions → r.ret = -1) :=
  startStream_platform_failure 5 ⟨true, [(2, "/a".toList, 7)], [], true, false, false, true⟩
    "/b".toList 1 2 9 rfl rfl

/-- C8 as stated fails: with `"/a"` registered under id 0, no entry has path exactly
`"/a/b"`, yet `startStream("/a/b")` inserts nothing, leaves the counter at 1 and returns 0. -/
theorem startStream_no_exact_match_counterexample :
    (∀ e ∈ (⟨true, [(0, "/a".toList, 7)], [], true, false, false, true⟩ :
        Handle).stream_handles, e.2.1 ≠ "/a/b".toList) ∧
    startStream 1 ⟨true, [(0, "/a".toList, 7)], [], true, false, false, true⟩
        "/a/b".toList 0 0 8 true
      = some ⟨0, 1, ⟨true, [(0, "/a".toList, 7)], [], true, false, false, true⟩, []⟩ := by
  decide

/-- C8, amended: on a started, non-stopped handle whose keys were all handed out by the
counter, with the counter below `INT32_MAX`, if no registered path is a byte-wise prefix of
`p` and the platform starts the stream, then `startStream(p)` returns the value the counter
had, increments the counter by one, and adds the one entry `id ↦ (p, stream)` behind the
existing entries, which are unchanged, as are the other fields of the handle. -/
theorem startStream_creates_entry (current_id : Int) (h : Handle) (p : Path)
    (latency : Latency) (flags : Int) (stream : StreamRef)
    (hstarted : h.started = true) (hrunning : h.stopped = false)
    (hkeys : KeysBelow h.stream_handles current_id)
    (hlo : INT32_MIN ≤ current_id) (hhi : current_id < INT32_MAX)
    (hfree : ∀ e ∈ h.stream_handles, ¬ e.2.1 <+: p) :
    ∃ r, startStream current_id h p latency flags stream true = some r ∧
      r.ret = current_id ∧ r.current_id = current_id + 1 ∧
      mapFind h.stream_handles current_id = none ∧
      mapFind r.h.stream_handles current_id = some (p, stream) ∧
      (∀ k, k ≠ current_id → mapFind r.h.stream_handles k = mapFind h.stream_handles k) ∧
      r.h = { h with stream_handles := h.stream_handles ++ [(current_id, (p, stream))] } ∧
      createdStreams r.actions = [stream] := by
  have hnone := find_memcmp_none h.stream_handles p hfree
  have hfnone := mapFind_keysBelow h.stream_handles current_id hkeys
  refine ⟨⟨current_id, current_id + 1,
    { h with stream_handles := h.stream_handles ++ [(current_id, (p, stream))] },
    [Action.streamCreate p latency flags stream, Action.streamStart stream true,
      Action.sourceSignal]⟩, ?_, rfl, rfl, hfnone, ?_, ?_, rfl, rfl⟩
  · simp [startStream, hstarted, hrunning, hnone, wrapInt32_succ current_id hlo hhi,
      mapInsert_keysBelow h.stream_handles current_id (p, stream) hkeys]
  · have : (List.find? (fun e => e.1 == current_id) h.stream_handles) = none := by
      simpa [mapFind] using hfnone
    simp [mapFind, List.find?_append, this]
  · intro k hk
    have hne : ¬ current_id = k := fun h' => hk h'.symm
    simp [mapFind, List.find?_append, hne]

theorem startStream_creates_entry_witness :
    ∃ r, startStream 1 ⟨true, [(0, "/a".toList, 7)], [], true, false, false, true⟩
        "/b".toList 0 0 8 true = some r ∧ r.ret = 1 ∧ r.current_id = 1 + 1 := by
  obtain ⟨r, hr, hret, hcur, _⟩ :=
    startStream_creates_entry 1 ⟨true, [(0, "/a".toList, 7)], [], true, false, false, true⟩
      "/b".toList 0 0 8 rfl rfl (by decide) (by decide) (by decide) (by decide)
  exact ⟨r, hr, hret, hcur⟩

/-! ## C5, C6: close and removal of an unknown id -/

theorem stoppedStreams_map_stop (m : StreamMap) :
    stoppedStreams (m.map (fun e => Action.stop_stream e.2.2)) = m.map (fun e => e.2.2) := by
  induction m with
  | nil => rfl
  | cons e rest ih => simp [stoppedStreams, ih]

theorem mapFind_filter_none (m : StreamMap) (q : Int × StreamValue → Bool) (key : Int)
    (hnone : mapFind m key = none) : mapFind (m.filter q) key = none := by
  rw [mapFind_eq_none_iff] at hnone ⊢
  intro e he
  exact hnone e (List.mem_of_mem_filter he)

theorem stopStreamLocked_find_none (h : Handle) (k key : Int)
    (hnone : mapFind h.stream_handles key = none) :
    mapFind (stopStreamLocked h k).1.stream_handles key = none := by
  unfold stopStreamLocked
  split
  · exact hnone
  · split
    · exact mapFind_filter_none _ _ _ hnone
    · exact hnone

theorem removeIds_append_absent (ids : List Int) (h : Handle) (key : Int)
    (hnone : mapFind h.stream_handles key = none) :
    removeIds h (ids ++ [key]) = removeIds h ids := by
  induction ids generalizing h with
  | nil => simp [removeIds, hnone]
  | cons id rest ih =>
    cases hf : mapFind h.stream_handles id with
    | none => simp [removeIds, hf, ih h hnone]
    | some v =>
      simp [removeIds, hf, ih (stopStreamLocked h id).1 (stopStreamLocked_find_none h id key hnone)]

/-- C6: on a started, non-stopped handle, for an id that is no key of the registry, the public
`stopStream(id)` itself stops no stream and emits no notice, and the maintenance pass that
follows gives exactly the handle and exactly the calls that the pass alone would give: the
same registry, no further stream stopped, no further stream-removed notice. -/
theorem stopStream_unknown_id (h : Handle) (id : Int)
    (hstarted : h.started = true) (hrunning : h.stopped = false)
    (habsent : mapFind h.stream_handles id = none) :
    ∃ h1 a1, stopStream h id = some (h1, a1) ∧
      stoppedStreams a1 = [] ∧ removalNotices a1 = [] ∧
      cleanupFunc h1 = cleanupFunc h ∧
      (cleanupFunc h1).1.stream_handles = (cleanupFunc h).1.stream_handles ∧
      stoppedStreams (cleanupFunc h1).2 = stoppedStreams (cleanupFunc h).2 ∧
      removalNotices (cleanupFunc h1).2 = removalNotices (cleanupFunc h).2 := by
  cases hc : h.closed with
  | true =>
    refine ⟨h, [], ?_, rfl, rfl, rfl, rfl, rfl, rfl⟩
    simp [stopStream, hstarted, hc]
  | false =>
    have key : cleanupFunc { h with streams_to_remove := h.streams_to_remove ++ [id] }
        = cleanupFunc h := by
      simp only [cleanupFunc, hrunning]
      simp only [Bool.false_eq_true, if_false]
      rw [← List.append_assoc]
      exact removeIds_append_absent _ _ id habsent
    refine ⟨{ h with streams_to_remove := h.streams_to_remove ++ [id] }, [Action.sourceSignal],
      ?_, rfl, rfl, key, ?_, ?_, ?_⟩
    · simp [stopStream, hstarted, hc]
    · rw [key]
    · rw [key]
    · rw [key]

theorem stopStream_unknown_id_witness :
    ∃ h1 a1, stopStream ⟨true, [(0, "/a".toList, 7), (3, "/a/b".toList, 9)], [], true, false,
        false, true⟩ 5 = some (h1, a1) ∧
      stoppedStreams a1 = [] ∧ removalNotices a1 = [] ∧
      cleanupFunc h1 = cleanupFunc ⟨true, [(0, "/a".toList, 7), (3, "/a/b".toList, 9)], [],
        true, false, false, true⟩ := by
  obtain ⟨h1, a1, h1eq, hs, hn, hc, _⟩ :=
    stopStream_unknown_id ⟨true, [(0, "/a".toList, 7), (3, "/a/b".toList, 9)], [], true, false,
      false, true⟩ 5 rfl rfl (by decide)
  exact ⟨h1, a1, h1eq, hs, hn, hc⟩

/-! ## C7: the event queue of the node adapter -/

theorem stopStreamLocked_running (h : Handle) (id : Int) (hrunning : h.stopped = false)
    (v : StreamValue) (hv : mapFind h.stream_handles id = some v) :
    (stopStreamLocked h id).1 = { h with stream_handles := mapErase h.stream_handles id } ∧
    (stopStreamLocked h id).2 = Action.stop_stream v.2 ::
      (if h.stop_stream_callback then [Action.stop_stream_callback [v.1]] else []) := by
  obtain ⟨p, s⟩ := v
  simp [stopStreamLocked, hrunning, hv]

theorem removeIds_handle (ids : List Int) (h : Handle) (hrunning : h.stopped = false) :
    (removeIds h ids).1
      = { h with stream_handles := h.stream_handles.filter (fun e => !ids.contains e.1) } := by
  induction ids generalizing h with
  | nil => simp [removeIds]
  | cons id rest ih =>
    cases hf : mapFind h.stream_handles id with
    | none =>
      simp only [removeIds, hf]
      rw [ih h hrunning]
      congr 1
      apply List.filter_congr
      intro e he
      have hne : e.1 ≠ id := (mapFind_eq_none_iff _ _).1 hf e he
      simp [hne]
    | some v =>
      have hs := (stopStreamLocked_running h id hrunning v hf).1
      simp only [removeIds, hf]
      rw [ih (stopStreamLocked h id).1 (by rw [hs]; exact hrunning), hs]
      simp only [mapErase, List.filter_filter]
      congr 1
      apply List.filter_congr
      intro e _
      by_cases hne : e.1 = id <;> simp [hne, Bool.and_comm]

theorem cleanupFunc_running (h : Handle) (hrunning : h.stopped = false) :
    cleanupFunc h = removeIds { h with streams_to_remove := [] }
      (redundantIds (h.stream_handles.map (fun e => (e.1, e.2.1))) ++ h.streams_to_remove) := by
  simp [cleanupFunc, hrunning]

theorem compareEq_spec (a b : Path) :
    compareEq a 0 a.length b 0 a.length = true ↔ a <+: b := by
  simp [compareEq, List.prefix_iff_eq_take]

theorem mem_redundantPair (l r : Int × Path) (x : Int) (hne : l.2 ≠ r.2) :
    x ∈ redundantPair l r ↔ (l.2 <+: r.2 ∧ x = r.1) ∨ (r.2 <+: l.2 ∧ x = l.1) := by
  unfold redundantPair
  by_cases hlen : r.2.length > l.2.length
  · have hnot : ¬ r.2 <+: l.2 := fun hp => by
      have := hp.length_le
      omega
    by_cases hp : l.2 <+: r.2
    · simp [hlen, (compareEq_spec l.2 r.2).2 hp, hp, hnot]
    · have hc : compareEq l.2 0 l.2.length r.2 0 l.2.length = false := by
        cases hcmp : compareEq l.2 0 l.2.length r.2 0 l.2.length with
        | false => rfl
        | true => exact absurd ((compareEq_spec l.2 r.2).1 hcmp) hp
      simp [hlen, hc, hp, hnot]
  · have hnot : ¬ l.2 <+: r.2 := fun hp => by
      have hle := hp.length_le
      have heq : l.2.length = r.2.length := by omega
      exact hne (hp.eq_of_length heq)
    by_cases hp : r.2 <+: l.2
    · simp [hlen, (compareEq_spec r.2 l.2).2 hp, hp, hnot]
    · have hc : compareEq r.2 0 r.2.length l.2 0 r.2.length = false := by
        cases hcmp : compareEq r.2 0 r.2.length l.2 0 r.2.length with
        | false => rfl
        | true => exact absurd ((compareEq_spec r.2 l.2).1 hcmp) hp
      simp [hlen, hc, hp, hnot]

theorem mem_redundantIds (streams : List (Int × Path)) (x : Int)
    (hnodup : (streams.map (fun s => s.2)).Nodup) :
    x ∈ redundantIds streams ↔
      ∃ a ∈ streams, ∃ b ∈ streams, a.2 <+: b.2 ∧ a.2 ≠ b.2 ∧ x = b.1 := by
  induction streams with
  | nil => simp [redundantIds]
  | cons l rest ih =>
    rw [List.map_cons, List.nodup_cons] at hnodup
    obtain ⟨hl, hrest⟩ := hnodup
    have hne : ∀ r ∈ rest, l.2 ≠ r.2 := fun r hr heq =>
      hl (List.mem_map.2 ⟨r, hr, heq.symm⟩)
    simp only [redundantIds, List.mem_append, List.mem_flatten, List.mem_map, ih hrest]
    constructor
    · rintro (⟨ys, ⟨r, hr, rfl⟩, hx⟩ | ⟨a, ha, b, hb, hp, hab, hx⟩)
      · rcases (mem_redundantPair l r x (hne r hr)).1 hx with ⟨hp, hx⟩ | ⟨hp, hx⟩
        · exact ⟨l, List.mem_cons_self _ _, r, List.mem_cons_of_mem _ hr, hp, hne r hr, hx⟩
        · exact ⟨r, List.mem_cons_of_mem _ hr, l, List.mem_cons_self _ _, hp,
            (hne r hr).symm, hx⟩
      · exact ⟨a, List.mem_cons_of_mem _ ha, b, List.mem_cons_of_mem _ hb, hp, hab, hx⟩
    · rintro ⟨a, ha, b, hb, hp, hab, hx⟩
      rcases List.mem_cons.1 ha with hal | har
      · rcases List.mem_cons.1 hb with hbl | hbr
        · exact absurd (hal.trans hbl.symm ▸ rfl) hab
        · subst hal
          exact Or.inl ⟨_, ⟨b, hbr, rfl⟩,
            (mem_redundantPair a b x (hne b hbr)).2 (Or.inl ⟨hp, hx⟩)⟩
      · rcases List.mem_cons.1 hb with hbl | hbr
        · subst hbl
          exact Or.inl ⟨_, ⟨a, har, rfl⟩,
            (mem_redundantPair b a x (hne a har)).2 (Or.inr ⟨hp, hx⟩)⟩
        · exact Or.inr ⟨a, har, b, hbr, hp, hab, hx⟩

theorem keysAscending_unique (m : StreamMap) (hkeys : KeysAscending m) (a b : Int × StreamValue)
    (ha : a ∈ m) (hb : b ∈ m) (hk : a.1 = b.1) : a = b := by
  induction m with
  | nil => simp at ha
  | cons e rest ih =>
    rw [KeysAscending, List.pairwise_cons] at hkeys
    obtain ⟨hlt, hrest⟩ := hkeys
    rcases List.mem_cons.1 ha with hal | har
    · rcases List.mem_cons.1 hb with hbl | hbr
      · rw [hal, hbl]
      · have := hlt b hbr
        rw [hal] at hk
        omega
    · rcases List.mem_cons.1 hb with hbl | hbr
      · have := hlt a har
        rw [hbl] at hk
        omega
      · exact ih hrest har hbr

/-- C10: on a non-stopped handle whose registry (a map, keys ascending) has pairwise distinct
paths and whose pending-removal list is empty, the registry after one maintenance pass holds
exactly the entries of the old registry whose path has no other registered path as a proper
byte-wise prefix, in their old order; the prefix test is on raw bytes, so with `"/ab"` and
`"/abc"` registered the entry for `"/abc"` goes. -/
theorem cleanupFunc_removes_nested (h : Handle) (hrunning : h.stopped = false)
    (hkeys : KeysAscending h.stream_handles)
    (hpaths : (h.stream_handles.map (fun e => e.2.1)).Nodup)
    (hpending : h.streams_to_remove = []) :
    (∀ e, e ∈ (cleanupFunc h).1.stream_handles ↔
      e ∈ h.stream_handles ∧
        ¬ ∃ e' ∈ h.stream_handles, e'.2.1 <+: e.2.1 ∧ e'.2.1 ≠ e.2.1) ∧
    (cleanupFunc h).1.stream_handles.Sublist h.stream_handles := by
  have hreg : (cleanupFunc h).1.stream_handles = h.stream_handles.filter
      (fun (e : Int × StreamValue) => !(redundantIds (h.stream_handles.map
        (fun (e : Int × StreamValue) => (e.1, e.2.1))) ++ []).contains e.1) := by
    rw [cleanupFunc_running h hrunning, hpending]
    rw [removeIds_handle _ { h with streams_to_remove := [] } hrunning]
  have hnodup : ((h.stream_handles.map (fun e => (e.1, e.2.1))).map (fun s => s.2)).Nodup := by
    simpa [List.map_map, Function.comp_def] using hpaths
  refine ⟨?_, ?_⟩
  · intro e
    rw [hreg, List.mem_filter]
    apply and_congr_right
    intro he
    simp only [List.append_nil, Bool.not_eq_true', List.contains_eq_any_beq,
      List.any_eq_false, beq_iff_eq]
    rw [← not_iff_not]
    push_neg
    constructor
    · rintro ⟨x, hx, hxe⟩
      obtain ⟨a, ha, b, hb, hp, hab, hxb⟩ := (mem_redundantIds _ x hnodup).1 hx
      obtain ⟨a', ha', rfl⟩ := List.mem_map.1 ha
      obtain ⟨b', hb', rfl⟩ := List.mem_map.1 hb
      have hbe : b' = e := keysAscending_unique _ hkeys b' e hb' he (by simpa [hxb] using hxe.symm)
      subst hbe
      exact ⟨a', ha', hp, hab⟩
    · rintro ⟨e', he', hp, hne⟩
      refine ⟨e.1, ?_, rfl⟩
      exact (mem_redundantIds _ e.1 hnodup).2
        ⟨(e'.1, e'.2.1), List.mem_map.2 ⟨e', he', rfl⟩, (e.1, e.2.1),
          List.mem_map.2 ⟨e, he, rfl⟩, hp, hne, rfl⟩
  · rw [hreg]
    exact List.filter_sublist _

theorem cleanupFunc_removes_nested_witness :
    (cleanupFunc ⟨true, [(0, "/ab".toList, 7), (1, "/abc".toList, 8), (2, "/b".toList, 9)], [],
        true, false, false, true⟩).1.stream_handles
      = [(0, "/ab".toList, 7), (2, "/b".toList, 9)] ∧
    ∀ e, e ∈ (cleanupFunc ⟨true, [(0, "/ab".toList, 7), (1, "/abc".toList, 8),
        (2, "/b".toList, 9)], [], true, false, false, true⟩).1.stream_handles ↔
      e ∈ (⟨true, [(0, "/ab".toList, 7), (1, "/abc".toList, 8), (2, "/b".toList, 9)], [],
        true, false, false, true⟩ : Handle).stream_handles ∧
        ¬ ∃ e' ∈ (⟨true, [(0, "/ab".toList, 7), (1, "/abc".toList, 8), (2, "/b".toList, 9)],
          [], true, false, false, true⟩ : Handle).stream_handles,
          e'.2.1 <+: e.2.1 ∧ e'.2.1 ≠ e.2.1 :=
  ⟨by decide, (cleanupFunc_removes_nested ⟨true, [(0, "/ab".toList, 7), (1, "/abc".toList, 8),
    (2, "/b".toList, 9)], [], true, false, false, true⟩ rfl (by decide) (by decide) rfl).1⟩

/-! ## C13, C14: the public `stopStream` -/

/-- C13: on a closed handle (which a handle only becomes after its loop has started) the
public `stopStream(id)` returns with the whole handle state unchanged and without making any
call: no platform stream is stopped and no stream-removed notice is emitted. -/
theorem stopStream_on_closed_handle (h : Handle) (id : Int) (hstarted : h.started = true)
    (hclosed : h.closed = true) :
    stopStream h id = some (h, []) ∧
    ∀ r, stopStream h id = some r →
      r.1 = h ∧ stoppedStreams r.2 = [] ∧ removalNotices r.2 = [] := by
  have hs : stopStream h id = some (h, []) := by
    simp [stopStream, hstarted, hclosed]
  refine ⟨hs, ?_⟩
  intro r hr
  rw [hs] at hr
  cases hr
  exact ⟨rfl, rfl, rfl⟩

theorem stopStream_on_closed_handle_witness :
    stopStream ⟨false, [], [4], true, true, true, true⟩ 4
      = some (⟨false, [], [4], true, true, true, true⟩, []) :=
  (stopStream_on_closed_handle ⟨false, [], [4], true, true, true, true⟩ 4 rfl rfl).1

/-- C14: on a started handle that is not closed the public `stopStream(id)` returns, and the
handle afterwards is the old handle with `id` appended to the pending-removal list: the registry
and every other field are unchanged, and the call itself stops no platform stream and emits no
stream-removed notice (it only signals the run loop source). -/
theorem stopStream_appends_pending (h : Handle) (id : Int) (hstarted : h.started = true)
    (hopen : h.closed = false) :
    ∃ r, stopStream h id = some r ∧
      r.1 = { h with streams_to_remove := h.streams_to_remove ++ [id] } ∧
      r.1.stream_handles = h.stream_handles ∧
      r.2 = [Action.sourceSignal] ∧
      stoppedStreams r.2 = [] ∧ removalNotices r.2 = [] := by
  refine ⟨({ h with streams_to_remove := h.streams_to_remove ++ [id] },
    [Action.sourceSignal]), ?_, rfl, rfl, rfl, rfl, rfl⟩
  simp [stopStream, hstarted, hopen]

theorem stopStream_appends_pending_witness :
    ∃ r, stopStream ⟨true, [(3, "/a".toList, 7)], [5], true, false, false, true⟩ 3 = some r ∧
      r.1 = { (⟨true, [(3, "/a".toList, 7)], [5], true, false, false, true⟩ : Handle) with
        streams_to_remove :=
          (⟨true, [(3, "/a".toList, 7)], [5], true, false, false, true⟩ :
            Handle).streams_to_remove ++ [3] } ∧
      r.1.stream_handles
        = (⟨true, [(3, "/a".toList, 7)], [5], true, false, false, true⟩ :
            Handle).stream_handles ∧
      r.2 = [Action.sourceSignal] ∧
      stoppedStreams r.2 = [] ∧ removalNotices r.2 = [] :=
  stopStream_appends_pending ⟨true, [(3, "/a".toList, 7)], [5], true, false, false, true⟩ 3
    rfl rfl

/-! ## C17: the order of the teardown calls -/

/-- C17, as stated, fails: closing a started handle with one registered stream stops the
notification loop first, invalidates the wake source second and stops the stream last. -/
theorem close_stops_streams_last_counterexample :
    (close ⟨true, [(0, "/a".toList, 7)], [], true, false, false, true⟩).map (fun r => r.2)
      = some [Action.sourceSignal, Action.runLoopStop, Action.sourceInvalidate,
          Action.stop_stream 7] := by
  decide

/-- C17, amended: `close` on a started handle that is not closed returns, and the calls it
causes are, in order: the signal of the wake source, `CFRunLoopStop`, the invalidation of the
wake source, and then one `stop_stream` per registered entry in key order; the handle
afterwards is stopped and closed with an empty registry. -/
theorem close_teardown_order (h : Handle) (hstarted : h.started = true)
    (hopen : h.closed = false) :
    close h = some
      ({ h with stopped := true, stream_handles := [], context := false, closed := true },
        [Action.sourceSignal, Action.runLoopStop, Action.sourceInvalidate] ++
          h.stream_handles.map (fun e => Action.stop_stream e.2.2)) := by
  simp [close, closeRequest, cleanupFunc, cleanupRunLoop, hstarted, hopen]

theorem close_teardown_order_witness :
    close ⟨true, [(0, "/a".toList, 7), (1, "/b".toList, 8)], [1], true, false, false, true⟩
      = some
        ({ (⟨true, [(0, "/a".toList, 7), (1, "/b".toList, 8)], [1], true, false, false,
              true⟩ : Handle) with
            stopped := true, stream_handles := [], context := false, closed := true },
          [Action.sourceSignal, Action.runLoopStop, Action.sourceInvalidate] ++
            (⟨true, [(0, "/a".toList, 7), (1, "/b".toList, 8)], [1], true, false, false,
              true⟩ : Handle).stream_handles.map (fun e => Action.stop_stream e.2.2)) :=
  close_teardown_order
    ⟨true, [(0, "/a".toList, 7), (1, "/b".toList, 8)], [1], true, false, false, true⟩ rfl rfl

/-! ## C15: what a maintenance pass does with the pending removals -/

theorem mapFind_mapErase_ne (m : StreamMap) (k key : Int) (hne : key ≠ k) :
    mapFind (mapErase m k) key = mapFind m key := by
  unfold mapFind mapErase
  congr 1
  induction m with
  | nil => rfl
  | cons e rest ih =>
    by_cases hk : e.1 = k
    · have hek : (e.1 == key) = false := by
        rw [beq_eq_false_iff_ne]
        exact fun h => hne (h.symm.trans hk)
      have hf : (e.1 != k) = false := by simp [hk]
      rw [List.filter_cons, hf, List.find?_cons, hek]
      exact ih
    · have hf : (e.1 != k) = true := by simp [hk]
      rw [List.filter_cons, hf]
      simp only [if_true, List.find?_cons]
      rw [ih]

theorem mapFind_filter_not_contains (m : StreamMap) (ids : List Int) (id : Int)
    (hid : id ∈ ids) :
    mapFind (m.filter (fun e => !ids.contains e.1)) id = none := by
  rw [mapFind_eq_none_iff]
  intro e he
  rw [List.mem_filter] at he
  intro heq
  have := he.2
  simp [heq, hid] at this

theorem removeIds_actions (ids : List Int) (h : Handle) (hrunning : h.stopped = false)
    (id : Int) (hid : id ∈ ids) (v : StreamValue) (hv : mapFind h.stream_handles id = some v) :
    Action.stop_stream v.2 ∈ (removeIds h ids).2 ∧
    (h.stop_stream_callback = true →
      Action.stop_stream_callback [v.1] ∈ (removeIds h ids).2) := by
  induction ids generalizing h with
  | nil => simp at hid
  | cons id' rest ih =>
    by_cases heq : id = id'
    · subst heq
      have hs := (stopStreamLocked_running h id hrunning v hv).2
      simp only [removeIds, hv, List.mem_append, hs]
      refine ⟨Or.inl (List.mem_cons_self _ _), fun hcb => Or.inl ?_⟩
      simp [hcb]
    · have hrest : id ∈ rest := by
        rcases List.mem_cons.1 hid with h1 | h1
        · exact absurd h1 heq
        · exact h1
      cases hf : mapFind h.stream_handles id' with
      | none =>
        simp only [removeIds, hf]
        exact ih h hrunning hrest hv
      | some w =>
        have hs := (stopStreamLocked_running h id' hrunning w hf).1
        have hih := ih (stopStreamLocked h id').1 (by rw [hs]; exact hrunning) hrest
          (by rw [hs]; simpa using (mapFind_mapErase_ne h.stream_handles id' id heq).trans hv)
        have hcb : (stopStreamLocked h id').1.stop_stream_callback = h.stop_stream_callback := by
          rw [hs]
        simp only [removeIds, hf, List.mem_append]
        exact ⟨Or.inr hih.1, fun hc => Or.inr (hih.2 (hcb.trans hc))⟩

theorem removeIds_no_notice (ids : List Int) (h : Handle) (hrunning : h.stopped = false)
    (hcb : h.stop_stream_callback = false) : removalNotices (removeIds h ids).2 = [] := by
  induction ids generalizing h with
  | nil => rfl
  | cons id rest ih =>
    cases hf : mapFind h.stream_handles id with
    | none =>
      simp only [removeIds, hf]
      exact ih h hrunning hcb
    | some v =>
      obtain ⟨hs1, hs2⟩ := stopStreamLocked_running h id hrunning v hf
      have hrun' : (stopStreamLocked h id).1.stopped = false := by rw [hs1]; exact hrunning
      have hcb' : (stopStreamLocked h id).1.stop_stream_callback = false := by
        rw [hs1]; exact hcb
      have hih := ih (stopStreamLocked h id).1 hrun' hcb'
      have hacts : removalNotices ((stopStreamLocked h id).2 ++
          (removeIds (stopStreamLocked h id).1 rest).2)
          = removalNotices (removeIds (stopStreamLocked h id).1 rest).2 := by
        rw [hs2, hcb]
        rfl
      simp only [removeIds, hf]
      rw [hacts, hih]

/-- C15, as stated, fails on a handle without a stream-removed callback: id 1 is pending and
registered, and the pass removes the entry and stops its stream but emits no notice. -/
theorem pending_removed_without_notice_counterexample :
    cleanupFunc ⟨true, [(0, "/a".toList, 7), (1, "/b".toList, 8)], [1], true, false, false,
        false⟩
      = (⟨true, [(0, "/a".toList, 7)], [], true, false, false, false⟩,
        [Action.stop_stream 8]) ∧
    removalNotices [Action.stop_stream 8] = [] := by
  decide

/-- C15, amended: on a non-stopped handle one maintenance pass leaves the pending-removal list
empty, and for every id that was both in the pending list and in the registry before the pass,
with path `p` and platform stream `s`: the id is no longer registered, `stop_stream s` was
called, and, when the handle has a stream-removed callback, a notice carrying `p` was emitted.
On a handle without a stream-removed callback the pass emits no notice at all. -/
theorem cleanupFunc_pending_removed (h : Handle) (hrunning : h.stopped = false) :
    (cleanupFunc h).1.streams_to_remove = [] ∧
    (∀ id ∈ h.streams_to_remove, ∀ p s, mapFind h.stream_handles id = some (p, s) →
      mapFind (cleanupFunc h).1.stream_handles id = none ∧
      Action.stop_stream s ∈ (cleanupFunc h).2 ∧
      (h.stop_stream_callback = true →
        Action.stop_stream_callback [p] ∈ (cleanupFunc h).2)) ∧
    (h.stop_stream_callback = false → removalNotices (cleanupFunc h).2 = []) := by
  rw [cleanupFunc_running h hrunning]
  refine ⟨by rw [removeIds_handle _ { h with streams_to_remove := [] } hrunning], ?_, ?_⟩
  · intro id hid p s hv
    have hmem : id ∈ redundantIds (h.stream_handles.map (fun e => (e.1, e.2.1))) ++
        h.streams_to_remove := List.mem_append_right _ hid
    refine ⟨?_, ?_⟩
    · rw [removeIds_handle _ { h with streams_to_remove := [] } hrunning]
      exact mapFind_filter_not_contains _ _ id hmem
    · exact removeIds_actions _ { h with streams_to_remove := [] } hrunning id hmem (p, s) hv
  · intro hcb
    exact removeIds_no_notice _ { h with streams_to_remove := [] } hrunning hcb

theorem cleanupFunc_pending_removed_witness :
    (cleanupFunc ⟨true, [(0, "/a".toList, 7), (1, "/b".toList, 8)], [1, 5, 1], true, false,
        false, true⟩).1.streams_to_remove = [] ∧
    (cleanupFunc ⟨true, [(0, "/a".toList, 7), (1, "/b".toList, 8)], [1, 5, 1], true, false,
        false, true⟩).2 = [Action.stop_stream 8, Action.stop_stream_callback ["/b".toList]] ∧
    ∀ id ∈ (⟨true, [(0, "/a".toList, 7), (1, "/b".toList, 8)], [1, 5, 1], true, false,
        false, true⟩ : Handle).streams_to_remove, ∀ p s,
      mapFind (⟨true, [(0, "/a".toList, 7), (1, "/b".toList, 8)], [1, 5, 1], true, false,
        false, true⟩ : Handle).stream_handles id = some (p, s) →
      mapFind (cleanupFunc ⟨true, [(0, "/a".toList, 7), (1, "/b".toList, 8)], [1, 5, 1], true,
        false, false, true⟩).1.stream_handles id = none ∧
      Action.stop_stream s ∈ (cleanupFunc ⟨true, [(0, "/a".toList, 7), (1, "/b".toList, 8)],
        [1, 5, 1], true, false, false, true⟩).2 ∧
      ((⟨true, [(0, "/a".toList, 7), (1, "/b".toList, 8)], [1, 5, 1], true, false,
        false, true⟩ : Handle).stop_stream_callback = true →
        Action.stop_stream_callback [p] ∈ (cleanupFunc ⟨true, [(0, "/a".toList, 7),
          (1, "/b".toList, 8)], [1, 5, 1], true, false, false, true⟩).2) :=
  ⟨by decide, by decide,
    (cleanupFunc_pending_removed ⟨true, [(0, "/a".toList, 7), (1, "/b".toList, 8)], [1, 5, 1],
      true, false, false, true⟩ rfl).2.1⟩

/-! ## Steps and runs -/

theorem cleanupFunc_registry (h : Handle) :
    ∃ q, (cleanupFunc h).1.stream_handles = h.stream_handles.filter q := by
  cases hs : h.stopped with
  | true =>
    refine ⟨fun _ => false, ?_⟩
    simp [cleanupFunc, cleanupRunLoop, hs]
  | false =>
    refine ⟨fun e => !(redundantIds (h.stream_handles.map (fun e => (e.1, e.2.1))) ++
      h.streams_to_remove).contains e.1, ?_⟩
    rw [cleanupFunc_running h hs, removeIds_handle _ { h with streams_to_remove := [] } hs]

theorem close_registry (h : Handle) (r : Handle × List Action) (hr : close h = some r) :
    ∃ q, r.1.stream_handles = h.stream_handles.filter q := by
  unfold close closeRequest at hr
  by_cases hst : h.started = true
  · by_cases hcl : h.closed = true
    · simp [hst, hcl] at hr
      subst hr
      exact ⟨fun _ => true, by simp⟩
    · simp [hst, hcl, cleanupFunc, cleanupRunLoop] at hr
      subst hr
      exact ⟨fun _ => false, by simp⟩
  · simp [hst] at hr

theorem step_cases (s : Sys) (op : Op) (r : Option Int × Sys × List Action)
    (hr : step s op = some r) :
    (r.2.1.current_id = s.current_id ∧
      (∃ q, r.2.1.h.stream_handles = s.h.stream_handles.filter q) ∧ assignedId r = []) ∨
    (∃ path latency flags stream,
      op = Op.startStream path latency flags stream true ∧
      s.h.started = true ∧ s.h.stopped = false ∧
      s.h.stream_handles.find? (fun e => memcmpMatches e.2.1 path) = none ∧
      r = (some s.current_id, ⟨wrapInt32 (s.current_id + 1),
        { s.h with stream_handles := mapInsert s.h.stream_handles s.current_id (path, stream) }⟩,
        [Action.streamCreate path latency flags stream, Action.streamStart stream true,
          Action.sourceSignal])) := by
  cases op with
  | loop =>
    simp only [step, Option.some.injEq] at hr
    subst hr
    exact Or.inl ⟨rfl, ⟨fun _ => true, by simp [loop]⟩, rfl⟩
  | startStream path latency flags stream startOk =>
    simp only [step, Option.map_eq_some'] at hr
    obtain ⟨x, hx, rfl⟩ := hr
    unfold startStream at hx
    by_cases hstop : s.h.stopped = true
    · simp [hstop] at hx
      subst hx
      exact Or.inl ⟨rfl, ⟨fun _ => true, by simp⟩, by simp [assignedId]⟩
    · by_cases hst : s.h.started = true
      · cases hf : s.h.stream_handles.find? (fun e => memcmpMatches e.2.1 path) with
        | some e =>
          simp [hstop, hst, hf] at hx
          subst hx
          exact Or.inl ⟨rfl, ⟨fun _ => true, by simp⟩, by simp [assignedId]⟩
        | none =>
          cases startOk with
          | false =>
            simp [hstop, hst, hf] at hx
            subst hx
            exact Or.inl ⟨rfl, ⟨fun _ => true, by simp⟩, by simp [assignedId]⟩
          | true =>
            simp [hstop, hst, hf] at hx
            subst hx
            have hstop' : s.h.stopped = false := by simpa using hstop
            exact Or.inr ⟨path, latency, flags, stream, rfl, hst, hstop', hf,
              by simp [hst, hstop']⟩
      · simp [hstop, hst] at hx
  | stopStream stream_key =>
    simp only [step, Option.map_eq_some'] at hr
    obtain ⟨x, hx, rfl⟩ := hr
    unfold stopStream at hx
    by_cases hst : s.h.started = true
    · by_cases hcl : s.h.closed = true
      · simp [hst, hcl] at hx
        subst hx
        exact Or.inl ⟨rfl, ⟨fun _ => true, by simp⟩, rfl⟩
      · simp [hst, hcl] at hx
        subst hx
        exact Or.inl ⟨rfl, ⟨fun _ => true, by simp⟩, rfl⟩
    · simp [hst] at hx
  | cleanupFunc =>
    simp only [step, Option.some.injEq] at hr
    subst hr
    exact Or.inl ⟨rfl, cleanupFunc_registry s.h, rfl⟩
  | closeRequest =>
    simp only [step, Option.map_eq_some'] at hr
    obtain ⟨x, hx, rfl⟩ := hr
    unfold closeRequest at hx
    by_cases hst : s.h.started = true
    · by_cases hcl : s.h.closed = true
      · simp [hst, hcl] at hx
        subst hx
        exact Or.inl ⟨rfl, ⟨fun _ => true, by simp⟩, rfl⟩
      · simp [hst, hcl] at hx
        subst hx
        exact Or.inl ⟨rfl, ⟨fun _ => true, by simp⟩, rfl⟩
    · simp [hst] at hx
  | close =>
    simp only [step, Option.map_eq_some'] at hr
    obtain ⟨x, hx, rfl⟩ := hr
    exact Or.inl ⟨rfl, close_registry s.h x hx, rfl⟩
  | defaultCallback count paths flags =>
    simp only [step, Option.some.injEq] at hr
    subst hr
    exact Or.inl ⟨rfl, ⟨fun _ => true, by simp⟩, rfl⟩

theorem keysBelow_filter (m : StreamMap) (q : Int × StreamValue → Bool) (c : Int)
    (hk : KeysBelow m c) : KeysBelow (m.filter q) c :=
  fun e he => hk e (List.mem_filter.1 he).1

theorem keysAscending_filter (m : StreamMap) (q : Int × StreamValue → Bool)
    (hk : KeysAscending m) : KeysAscending (m.filter q) :=
  List.Pairwise.sublist (List.filter_sublist m) hk

theorem keysAscending_append (m : StreamMap) (key : Int) (value : StreamValue)
    (hb : KeysBelow m key) (hk : KeysAscending m) : KeysAscending (m ++ [(key, value)]) := by
  unfold KeysAscending
  rw [List.pairwise_append]
  refine ⟨hk, List.pairwise_singleton _ _, ?_⟩
  intro a ha b hb'
  rw [List.mem_singleton] at hb'
  subst hb'
  exact hb a ha

theorem step_wf (s : Sys) (op : Op) (r : Option Int × Sys × List Action) (hwf : WF s)
    (hhi : s.current_id < INT32_MAX) (hr : step s op = some r) :
    WF r.2.1 ∧ s.current_id ≤ r.2.1.current_id ∧ r.2.1.current_id ≤ s.current_id + 1 := by
  obtain ⟨hlo, hkb, hka⟩ := hwf
  rcases step_cases s op r hr with ⟨hc, ⟨q, hq⟩, _⟩ | ⟨path, latency, flags, stream, _, _, _, _, rfl⟩
  · refine ⟨⟨?_, ?_, ?_⟩, ?_, ?_⟩
    · rw [hc]; exact hlo
    · rw [hc, hq]; exact keysBelow_filter _ q _ hkb
    · rw [hq]; exact keysAscending_filter _ q hka
    · rw [hc]
    · rw [hc]; omega
  · have hw := wrapInt32_succ s.current_id hlo hhi
    have hins := mapInsert_keysBelow s.h.stream_handles s.current_id (path, stream) hkb
    refine ⟨⟨?_, ?_, ?_⟩, ?_, ?_⟩
    · show INT32_MIN ≤ wrapInt32 (s.current_id + 1)
      rw [hw]; omega
    · show KeysBelow (mapInsert s.h.stream_handles s.current_id (path, stream))
        (wrapInt32 (s.current_id + 1))
      rw [hw, hins]
      intro e he
      rcases List.mem_append.1 he with h1 | h1
      · have := hkb e h1
        omega
      · rw [List.mem_singleton] at h1
        subst h1
        show s.current_id < s.current_id + 1
        omega
    · show KeysAscending (mapInsert s.h.stream_handles s.current_id (path, stream))
      rw [hins]
      exact keysAscending_append _ _ _ hkb hka
    · show s.current_id ≤ wrapInt32 (s.current_id + 1)
      rw [hw]; omega
    · show wrapInt32 (s.current_id + 1) ≤ s.current_id + 1
      rw [hw]

theorem runOps_invariant (P : Sys → Prop)
    (hstep : ∀ s op r, WF s → s.current_id < INT32_MAX → P s → step s op = some r → P r.2.1)
    (ops : List Op) (s : Sys) (x : Sys × List Action) (hwf : WF s)
    (hbound : s.current_id + ops.length ≤ INT32_MAX) (hP : P s)
    (hrun : runOps s ops = some x) :
    P x.1 ∧ WF x.1 ∧ s.current_id ≤ x.1.current_id ∧
      x.1.current_id ≤ s.current_id + ops.length := by
  induction ops generalizing s x with
  | nil =>
    simp only [runOps, Option.some.injEq] at hrun
    subst hrun
    simp only [List.length_nil, Int.ofNat_zero, add_zero] at hbound
    exact ⟨hP, hwf, le_refl _, by simp⟩
  | cons op rest ih =>
    simp only [List.length_cons, Nat.cast_add, Nat.cast_one] at hbound
    have hhi : s.current_id < INT32_MAX := by omega
    cases hs : step s op with
    | none => simp [runOps, hs] at hrun
    | some r =>
      cases hrest : runOps r.2.1 rest with
      | none => simp [runOps, hs, hrest] at hrun
      | some y =>
        simp only [runOps, hs, hrest, Option.some.injEq] at hrun
        subst hrun
        obtain ⟨hwf', hge, hle⟩ := step_wf s op r hwf hhi hs
        obtain ⟨h1, h2, h3, h4⟩ := ih r.2.1 y hwf' (by omega) (hstep s op r hwf hhi hP hs) hrest
        refine ⟨h1, h2, le_trans hge h3, ?_⟩
        simp only [List.length_cons, Nat.cast_add, Nat.cast_one]
        omega

theorem find_memcmp_none_iff (m : StreamMap) (path : Path) :
    m.find? (fun e => memcmpMatches e.2.1 path) = none ↔ ∀ e ∈ m, ¬ e.2.1 <+: path := by
  rw [List.find?_eq_none]
  simp [memcmpMatches]

/-- The registry after a step that creates a stream. -/
theorem created_registry (s : Sys) (path : Path) (stream : StreamRef) (hwf : WF s) :
    mapInsert s.h.stream_handles s.current_id (path, stream)
      = s.h.stream_handles ++ [(s.current_id, (path, stream))] :=
  mapInsert_keysBelow _ _ _ hwf.2.1

/-! ## C11: prefix pairs in the registry -/

/-- C11, as stated, fails: after the loop start, `startStream("/a/b")` and `startStream("/a")`
on a fresh handle the registry holds both entries, and `"/a"` is a byte-wise prefix of
`"/a/b"`. -/
theorem registry_holds_nested_paths_counterexample :
    (runOps ⟨0, handle true⟩ [Op.loop, Op.startStream "/a/b".toList 0 0 7 true,
        Op.startStream "/a".toList 0 0 8 true]).map (fun x => x.1.h.stream_handles)
      = some [(0, "/a/b".toList, 7), (1, "/a".toList, 8)] ∧
    "/a".toList <+: "/a/b".toList := by
  decide

/-- C11, amended: in every state reached from a fresh handle by entry points that all return
(the counter starting at a non-negative value and not overflowing), two distinct registry
entries can only have one path a byte-wise prefix of the other when the entry with the prefix
path has the larger id, that is, was registered later; in particular no two entries hold the
same path. -/
theorem registry_prefix_only_of_later (current_id : Int) (cb : Bool) (ops : List Op)
    (x : Sys × List Action) (h0 : 0 ≤ current_id)
    (hbound : current_id + ops.length ≤ INT32_MAX)
    (hrun : runOps ⟨current_id, handle cb⟩ ops = some x) :
    ∀ e1 ∈ x.1.h.stream_handles, ∀ e2 ∈ x.1.h.stream_handles,
      e1 ≠ e2 → e1.2.1 <+: e2.2.1 → e2.1 < e1.1 := by
  have hwf0 : WF ⟨current_id, handle cb⟩ := by
    refine ⟨?_, ?_, ?_⟩
    · show INT32_MIN ≤ current_id
      unfold INT32_MIN
      omega
    · intro e he
      simp [handle] at he
    · simp [KeysAscending, handle]
  have hinv := runOps_invariant
    (fun s => ∀ e1 ∈ s.h.stream_handles, ∀ e2 ∈ s.h.stream_handles,
      e1.1 < e2.1 → ¬ e1.2.1 <+: e2.2.1)
    (by
      intro s op r hwf _ hP hr
      rcases step_cases s op r hr with
        ⟨_, ⟨q, hq⟩, _⟩ | ⟨path, latency, flags, stream, _, _, _, hf, rfl⟩
      · intro e1 he1 e2 he2
        rw [hq] at he1 he2
        exact hP e1 (List.mem_filter.1 he1).1 e2 (List.mem_filter.1 he2).1
      · intro e1 he1 e2 he2 hlt
        change e1 ∈ mapInsert s.h.stream_handles s.current_id (path, stream) at he1
        change e2 ∈ mapInsert s.h.stream_handles s.current_id (path, stream) at he2
        rw [created_registry s path stream hwf] at he1 he2
        rcases List.mem_append.1 he2 with h2 | h2
        · rcases List.mem_append.1 he1 with h1 | h1
          · exact hP e1 h1 e2 h2 hlt
          · rw [List.mem_singleton] at h1
            subst h1
            have := hwf.2.1 e2 h2
            exact absurd hlt (by show ¬ s.current_id < e2.1; omega)
        · rw [List.mem_singleton] at h2
          subst h2
          rcases List.mem_append.1 he1 with h1 | h1
          · exact (find_memcmp_none_iff _ _).1 hf e1 h1
          · rw [List.mem_singleton] at h1
            subst h1
            exact absurd hlt (lt_irrefl _))
    ops ⟨current_id, handle cb⟩ x hwf0 hbound
    (by intro e1 he1; simp [handle] at he1) hrun
  obtain ⟨hP, hwf, _, _⟩ := hinv
  intro e1 he1 e2 he2 hne hpre
  rcases lt_trichotomy e1.1 e2.1 with hlt | heq | hgt
  · exact absurd hpre (hP e1 he1 e2 he2 hlt)
  · exact absurd (keysAscending_unique _ hwf.2.2 e1 e2 he1 he2 heq) hne
  · exact hgt

theorem registry_prefix_only_of_later_witness :
    runOps ⟨0, handle true⟩ [Op.loop, Op.startStream "/a/b".toList 0 0 7 true,
        Op.startStream "/a".toList 0 0 8 true]
      = some (⟨2, ⟨true, [(0, "/a/b".toList, 7), (1, "/a".toList, 8)], [], true, false, false,
          true⟩⟩,
        [Action.streamCreate "/a/b".toList 0 0 7, Action.streamStart 7 true,
          Action.sourceSignal, Action.streamCreate "/a".toList 0 0 8,
          Action.streamStart 8 true, Action.sourceSignal]) ∧
    (((0 : Int), ("/a/b".toList, (7 : StreamRef))) : Int × StreamValue).1
      < (((1 : Int), ("/a".toList, (8 : StreamRef))) : Int × StreamValue).1 :=
  ⟨by decide,
    registry_prefix_only_of_later 0 true [Op.loop, Op.startStream "/a/b".toList 0 0 7 true,
      Op.startStream "/a".toList 0 0 8 true]
      (⟨2, ⟨true, [(0, "/a/b".toList, 7), (1, "/a".toList, 8)], [], true, false, false,
          true⟩⟩,
        [Action.streamCreate "/a/b".toList 0 0 7, Action.streamStart 7 true,
          Action.sourceSignal, Action.streamCreate "/a".toList 0 0 8,
          Action.streamStart 8 true, Action.sourceSignal])
      (by decide) (by decide) (by decide)
      (1, ("/a".toList, 8)) (by decide) (0, ("/a/b".toList, 7)) (by decide) (by decide)
      (by decide)⟩

theorem runOps_trace_induction (P : Sys → List Action → Prop)
    (hstep : ∀ s T op r, P s T → step s op = some r → P r.2.1 (T ++ r.2.2))
    (ops : List Op) (s : Sys) (x : Sys × List Action) (T0 : List Action) (hP : P s T0)
    (hrun : runOps s ops = some x) : P x.1 (T0 ++ x.2) := by
  induction ops generalizing s x T0 with
  | nil =>
    simp only [runOps, Option.some.injEq] at hrun
    subst hrun
    simpa using hP
  | cons op rest ih =>
    cases hs : step s op with
    | none => simp [runOps, hs] at hrun
    | some r =>
      cases hrest : runOps r.2.1 rest with
      | none => simp [runOps, hs, hrest] at hrun
      | some y =>
        simp only [runOps, hs, hrest, Option.some.injEq] at hrun
        subst hrun
        have := ih r.2.1 y (T0 ++ r.2.2) (hstep s T0 op r hP hs) hrest
        simpa [List.append_assoc] using this

/-! ## C20: the lifecycle flags -/

theorem startStream_started (current_id : Int) (h : Handle) (path : Path) (latency : Latency)
    (flags : Int) (stream : StreamRef) (startOk : Bool) (hstarted : h.started = true)
    (hrunning : h.stopped = false) :
    startStream current_id h path latency flags stream startOk
      = startStreamResume current_id h path latency flags stream startOk := by
  simp [startStream, startStreamResume, hstarted, hrunning]

/-- C18, as stated, fails at the end of the counter range: on a fresh handle created when the
counter is `INT32_MAX`, the first stream gets id `2147483647`, the counter wraps, and the
`startStream` call for the second stream returns `-2147483648`, which is neither -1 nor
non-negative. -/
theorem startStream_returns_negative_id_counterexample :
    runOps ⟨2147483647, handle true⟩ [Op.loop, Op.startStream "/a".toList 0 0 7 true]
      = some (⟨-2147483648, ⟨true, [(2147483647, "/a".toList, 7)], [], true, false, false,
          true⟩⟩,
        [Action.streamCreate "/a".toList 0 0 7, Action.streamStart 7 true,
          Action.sourceSignal]) ∧
    startStream (-2147483648) ⟨true, [(2147483647, "/a".toList, 7)], [], true, false, false,
        true⟩ "/b".toList 0 0 8 true
      = some ⟨-2147483648, -2147483647,
          ⟨true, [(-2147483648, "/b".toList, 8), (2147483647, "/a".toList, 7)], [], true,
            false, false, true⟩,
          [Action.streamCreate "/b".toList 0 0 8, Action.streamStart 8 true,
            Action.sourceSignal]⟩ := by
  decide

/-- C18, amended: in every state reached from a fresh handle by entry points that all return, the
counter having started at 0 (so that it is non-negative when the handle is created) and staying
below `INT32_MAX`, a `startStream` call that returns hands back either -1 or a non-negative
id; and it either leaves the counter as it was or has created a stream, returned the old
counter value as its id and advanced the counter by exactly one. -/
theorem startStream_returns_id_or_minus_one (current_id : Int) (cb : Bool) (ops : List Op)
    (x : Sys × List Action) (h0 : 0 ≤ current_id)
    (hbound : current_id + ops.length < INT32_MAX)
    (hrun : runOps ⟨current_id, handle cb⟩ ops = some x)
    (path : Path) (latency : Latency) (flags : Int) (stream : StreamRef) (startOk : Bool)
    (r : StartResult)
    (hr : startStream x.1.current_id x.1.h path latency flags stream startOk = some r) :
    (r.ret = -1 ∨ 0 ≤ r.ret) ∧
    (r.current_id = x.1.current_id ∨
      (r.current_id = x.1.current_id + 1 ∧ r.ret = x.1.current_id ∧
        Action.streamStart stream true ∈ r.actions)) := by
  have hwf0 : WF ⟨current_id, handle cb⟩ := by
    refine ⟨?_, ?_, ?_⟩
    · show INT32_MIN ≤ current_id
      unfold INT32_MIN
      omega
    · intro e he
      simp [handle] at he
    · simp [KeysAscending, handle]
  have hinv := runOps_invariant
    (fun s => 0 ≤ s.current_id ∧ ∀ e ∈ s.h.stream_handles, 0 ≤ e.1)
    (by
      intro s op r hwf hhi hP hs
      rcases step_cases s op r hs with
        ⟨hc, ⟨q, hq⟩, _⟩ | ⟨path, latency, flags, stream, _, _, _, _, rfl⟩
      · refine ⟨by rw [hc]; exact hP.1, ?_⟩
        intro e he
        rw [hq] at he
        exact hP.2 e (List.mem_filter.1 he).1
      · refine ⟨?_, ?_⟩
        · show 0 ≤ wrapInt32 (s.current_id + 1)
          rw [wrapInt32_succ s.current_id hwf.1 hhi]
          have := hP.1
          omega
        · intro e he
          change e ∈ mapInsert s.h.stream_handles s.current_id (path, stream) at he
          rw [created_registry s path stream hwf] at he
          rcases List.mem_append.1 he with h1 | h1
          · exact hP.2 e h1
          · rw [List.mem_singleton] at h1
            subst h1
            exact hP.1)
    ops ⟨current_id, handle cb⟩ x hwf0 (le_of_lt hbound)
    ⟨h0, by intro e he; simp [handle] at he⟩ hrun
  obtain ⟨⟨hcur, hkeys⟩, hwf, _, hle⟩ := hinv
  have hhi : x.1.current_id < INT32_MAX := lt_of_le_of_lt hle hbound
  unfold startStream at hr
  split at hr
  · cases hr
    exact ⟨Or.inl rfl, Or.inl rfl⟩
  · split at hr
    · cases hr
    · split at hr
      · rename_i e hf
        cases hr
        exact ⟨Or.inr (hkeys e (List.mem_of_find?_eq_some hf)), Or.inl rfl⟩
      · split at hr
        · cases hr
          exact ⟨Or.inl rfl, Or.inl rfl⟩
        · rename_i hok
          cases hr
          have hok' : startOk = true := by simpa using hok
          subst hok'
          exact ⟨Or.inr hcur, Or.inr ⟨wrapInt32_succ _ hwf.1 hhi, rfl, by simp⟩⟩

theorem startStream_returns_id_or_minus_one_witness :
    ((0 : Int) = -1 ∨ (0 : Int) ≤ 0) ∧
    ((1 : Int) = 0 ∨ ((1 : Int) = 0 + 1 ∧ (0 : Int) = 0 ∧
      Action.streamStart 7 true ∈ [Action.streamCreate "/a".toList 0 0 7,
        Action.streamStart 7 true, Action.sourceSignal])) :=
  startStream_returns_id_or_minus_one 0 true [Op.loop]
    (⟨0, ⟨true, [], [], true, false, false, true⟩⟩, []) (by decide) (by decide) (by decide)
    "/a".toList 0 0 7 true
    ⟨0, 1, ⟨true, [(0, "/a".toList, 7)], [], true, false, false, true⟩,
      [Action.streamCreate "/a".toList 0 0 7, Action.streamStart 7 true, Action.sourceSignal]⟩
    (by decide)

/-! ## C12: ids over several handles -/

theorem wf_counter_mono (c c' : Int) (h : Handle) (hwf : WF ⟨c, h⟩) (hle : c ≤ c') :
    WF ⟨c', h⟩ := by
  obtain ⟨hlo, hkb, hka⟩ := hwf
  refine ⟨le_trans hlo hle, ?_, hka⟩
  intro e he
  exact lt_of_lt_of_le (hkb e he) hle

theorem procStep_spec (p : Proc) (i : Nat) (op : Op) (r : List Int × Proc)
    (hwf : ∀ h ∈ p.handles, WF ⟨p.current_id, h⟩) (hhi : p.current_id < INT32_MAX)
    (hr : procStep p i op = some r) :
    (∀ h ∈ r.2.handles, WF ⟨r.2.current_id, h⟩) ∧
    ((r.1 = [] ∧ r.2.current_id = p.current_id) ∨
      (r.1 = [p.current_id] ∧ r.2.current_id = p.current_id + 1)) := by
  unfold procStep at hr
  cases hh : p.handles[i]? with
  | none => simp [hh] at hr
  | some h =>
    cases hs : step ⟨p.current_id, h⟩ op with
    | none => simp [hh, hs] at hr
    | some y =>
      simp only [hh, hs, Option.some.injEq] at hr
      subst hr
      have hmem : h ∈ p.handles := List.getElem?_mem hh
      obtain ⟨hwf', hge, hle⟩ := step_wf ⟨p.current_id, h⟩ op y (hwf h hmem) hhi hs
      refine ⟨?_, ?_⟩
      · intro h' hh'
        rcases List.mem_or_eq_of_mem_set hh' with hold | hnew
        · exact wf_counter_mono _ _ _ (hwf h' hold) hge
        · subst hnew
          exact hwf'
      · rcases step_cases ⟨p.current_id, h⟩ op y hs with
          ⟨hc, _, ha⟩ | ⟨path, latency, flags, stream, _, _, _, _, rfl⟩
        · exact Or.inl ⟨ha, hc⟩
        · refine Or.inr ⟨by simp [assignedId], ?_⟩
          exact wrapInt32_succ _ (hwf h hmem).1 hhi

/-- C12, as stated, fails once the counter has reached `INT32_MAX`: the next two streams
created get the ids `2147483647` and `-2147483648`, the second smaller than the first. -/
theorem ids_wrap_counterexample :
    procRun ⟨2147483647, [⟨true, [], [], true, false, false, true⟩]⟩
        [(0, Op.startStream "/a".toList 0 0 7 true), (0, Op.startStream "/b".toList 0 0 8 true)]
      = some ([2147483647, -2147483648],
          ⟨-2147483647, [⟨true, [(-2147483648, "/b".toList, 8), (2147483647, "/a".toList, 7)],
            [], true, false, false, true⟩]⟩) ∧
    ¬ ((2147483647 : Int) < -2147483648) := by
  decide

/-- C12, amended: over any sequence of calls on any number of handles sharing the counter (each
registry a map of keys the counter has handed out, the counter not overflowing during the
sequence), the ids assigned to newly created streams are strictly increasing in order of
assignment, each is at least the counter value at the start and so strictly greater than every
id held by any registry at the start, and at the end every registry key of every handle is
below the counter, from which all later ids are taken: an id is never assigned twice, also not
after its entry has been removed. -/
theorem ids_never_reused (p : Proc) (calls : List (Nat × Op)) (x : List Int × Proc)
    (hwf : ∀ h ∈ p.handles, WF ⟨p.current_id, h⟩)
    (hbound : p.current_id + calls.length ≤ INT32_MAX)
    (hrun : procRun p calls = some x) :
    x.1.Pairwise (fun a b => a < b) ∧
    (∀ id ∈ x.1, p.current_id ≤ id ∧ id < x.2.current_id) ∧
    (∀ id ∈ x.1, ∀ h ∈ p.handles, ∀ e ∈ h.stream_handles, e.1 < id) ∧
    (∀ h ∈ x.2.handles, ∀ e ∈ h.stream_handles, e.1 < x.2.current_id) ∧
    p.current_id ≤ x.2.current_id := by
  have key : x.1.Pairwise (fun a b => a < b) ∧
      (∀ id ∈ x.1, p.current_id ≤ id ∧ id < x.2.current_id) ∧
      (∀ h ∈ x.2.handles, WF ⟨x.2.current_id, h⟩) ∧ p.current_id ≤ x.2.current_id := by
    induction calls generalizing p x with
    | nil =>
      simp only [procRun, Option.some.injEq] at hrun
      subst hrun
      exact ⟨List.Pairwise.nil, by intro id hid; simp at hid, hwf, le_refl _⟩
    | cons c rest ih =>
      simp only [List.length_cons, Nat.cast_add, Nat.cast_one] at hbound
      have hhi : p.current_id < INT32_MAX := by omega
      cases hs : procStep p c.1 c.2 with
      | none => simp [procRun, hs] at hrun
      | some r =>
        cases hrest : procRun r.2 rest with
        | none => simp [procRun, hs, hrest] at hrun
        | some y =>
          simp only [procRun, hs, hrest, Option.some.injEq] at hrun
          subst hrun
          obtain ⟨hwf', hcase⟩ := procStep_spec p c.1 c.2 r hwf hhi hs
          have hb' : r.2.current_id + rest.length ≤ INT32_MAX := by
            rcases hcase with ⟨_, hc⟩ | ⟨_, hc⟩ <;> rw [hc] <;> omega
          obtain ⟨i1, i2, i3, i4⟩ := ih r.2 y hwf' hb' hrest
          rcases hcase with ⟨ha, hc⟩ | ⟨ha, hc⟩
          · rw [hc] at i2 i4
            simp only [ha, List.nil_append]
            exact ⟨i1, i2, i3, i4⟩
          · rw [hc] at i2 i4
            simp only [ha, List.singleton_append, List.pairwise_cons, List.mem_cons]
            refine ⟨⟨?_, i1⟩, ?_, i3, by omega⟩
            · intro b hb
              have := (i2 b hb).1
              omega
            · rintro id (rfl | hid)
              · exact ⟨le_refl _, by omega⟩
              · have := i2 id hid
                exact ⟨by omega, this.2⟩
  obtain ⟨k1, k2, k3, k4⟩ := key
  refine ⟨k1, k2, ?_, fun h hh e he => (k3 h hh).2.1 e he, k4⟩
  intro id hid h hh e he
  exact lt_of_lt_of_le ((hwf h hh).2.1 e he) (k2 id hid).1

theorem ids_never_reused_witness :
    procRun ⟨0, [handle true, handle true]⟩
        [(0, Op.loop), (1, Op.loop), (0, Op.startStream "/a".toList 0 0 7 true),
          (1, Op.startStream "/a".toList 0 0 8 true), (0, Op.stopStream 0),
          (0, Op.cleanupFunc), (0, Op.startStream "/a".toList 0 0 9 true)]
      = some ([0, 1, 2],
          ⟨3, [⟨true, [(2, "/a".toList, 9)], [], true, false, false, true⟩,
            ⟨true, [(1, "/a".toList, 8)], [], true, false, false, true⟩]⟩) ∧
    [(0 : Int), 1, 2].Pairwise (fun a b => a < b) :=
  ⟨by decide,
    (ids_never_reused ⟨0, [handle true, handle true]⟩
      [(0, Op.loop), (1, Op.loop), (0, Op.startStream "/a".toList 0 0 7 true),
        (1, Op.startStream "/a".toList 0 0 8 true), (0, Op.stopStream 0),
        (0, Op.cleanupFunc), (0, Op.startStream "/a".toList 0 0 9 true)]
      ([0, 1, 2],
        ⟨3, [⟨true, [(2, "/a".toList, 9)], [], true, false, false, true⟩,
          ⟨true, [(1, "/a".toList, 8)], [], true, false, false, true⟩]⟩)
      (by decide) (by decide) (by decide)).1⟩

/-! ## C16: every created stream is stopped and announced at most once -/

theorem stoppedStreams_append (xs ys : List Action) :
    stoppedStreams (xs ++ ys) = stoppedStreams xs ++ stoppedStreams ys := by
  induction xs with
  | nil => rfl
  | cons a rest ih => cases a <;> simp [stoppedStreams, ih]

theorem removalNotices_append (xs ys : List Action) :
    removalNotices (xs ++ ys) = removalNotices xs ++ removalNotices ys := by
  induction xs with
  | nil => rfl
  | cons a rest ih => cases a <;> simp [removalNotices, ih]

theorem createdStreams_append (xs ys : List Action) :
    createdStreams (xs ++ ys) = createdStreams xs ++ createdStreams ys := by
  induction xs with
  | nil => rfl
  | cons a rest ih => cases a <;> simp [createdStreams, ih]

theorem createdPaths_append (xs ys : List Action) :
    createdPaths (xs ++ ys) = createdPaths xs ++ createdPaths ys := by
  induction xs with
  | nil => rfl
  | cons a rest ih => cases a <;> simp [createdPaths, ih]

theorem removalNotices_map_stop (m : StreamMap) :
    removalNotices (m.map (fun e => Action.stop_stream e.2.2)) = [] := by
  induction m with
  | nil => rfl
  | cons e rest ih => simpa [removalNotices] using ih

theorem count_map_filter_le {α : Type} [BEq α] [LawfulBEq α] (f : Int × StreamValue → α)
    (m : StreamMap) (q : Int × StreamValue → Bool) (x : α) :
    List.count x ((m.filter q).map f) ≤ List.count x (m.map f) :=
  List.Sublist.count_le (List.Sublist.map f (List.filter_sublist m)) x

theorem count_mapErase {α : Type} [BEq α] [LawfulBEq α] (f : Int × StreamValue → α)
    (m : StreamMap) (id : Int) (v : StreamValue) (hv : mapFind m id = some v) (x : α) :
    List.count x ((mapErase m id).map f) + (if f (id, v) == x then 1 else 0)
      ≤ List.count x (m.map f) := by
  induction m with
  | nil => simp [mapFind] at hv
  | cons e rest ih =>
    by_cases hk : e.1 = id
    · have hev : e = (id, v) := by
        simp [mapFind, List.find?_cons, hk] at hv
        exact Prod.ext hk hv
      have hle := count_map_filter_le f rest (fun e => e.1 != id) x
      subst hev
      simp only [mapErase, List.filter_cons, bne_self_eq_false, Bool.false_eq_true, if_false,
        List.map_cons, List.count_cons]
      omega
    · have hv' : mapFind rest id = some v := by
        simpa [mapFind, List.find?_cons, hk] using hv
      have hf : (e.1 != id) = true := by simp [hk]
      have := ih hv'
      simp only [mapErase, List.filter_cons, hf, List.map_cons, List.count_cons] at this ⊢
      simp only [if_true, List.map_cons, List.count_cons]
      omega

theorem count_mapInsert {α : Type} [BEq α] [LawfulBEq α] (f : Int × StreamValue → α)
    (m : StreamMap) (key : Int) (value : StreamValue) (x : α) :
    List.count x ((mapInsert m key value).map f)
      ≤ List.count x (m.map f) + (if f (key, value) == x then 1 else 0) := by
  induction m with
  | nil => simp [mapInsert, List.count_cons]
  | cons e rest ih =>
    obtain ⟨k, v⟩ := e
    by_cases h1 : key < k
    · simp only [mapInsert, h1, if_true, List.map_cons, List.count_cons]
      omega
    · by_cases h2 : key = k
      · subst h2
        simp only [mapInsert, lt_irrefl, if_true, if_false, List.map_cons, List.count_cons]
        omega
      · simp only [mapInsert, h1, h2, if_false, List.map_cons, List.count_cons]
        omega

theorem removeIds_counts (ids : List Int) (h : Handle) (hrunning : h.stopped = false) :
    (∀ x, List.count x (stoppedStreams (removeIds h ids).2) +
        List.count x ((removeIds h ids).1.stream_handles.map (fun e => e.2.2))
      ≤ List.count x (h.stream_handles.map (fun e => e.2.2))) ∧
    (∀ p, List.count p (removalNotices (removeIds h ids).2) +
        List.count p ((removeIds h ids).1.stream_handles.map (fun e => e.2.1))
      ≤ List.count p (h.stream_handles.map (fun e => e.2.1))) := by
  induction ids generalizing h with
  | nil => simp [removeIds, stoppedStreams, removalNotices]
  | cons id rest ih =>
    cases hf : mapFind h.stream_handles id with
    | none =>
      simp only [removeIds, hf]
      exact ih h hrunning
    | some v =>
      obtain ⟨hs1, hs2⟩ := stopStreamLocked_running h id hrunning v hf
      have hrun' : (stopStreamLocked h id).1.stopped = false := by rw [hs1]; exact hrunning
      obtain ⟨ih1, ih2⟩ := ih (stopStreamLocked h id).1 hrun'
      have hreg : (stopStreamLocked h id).1.stream_handles = mapErase h.stream_handles id := by
        rw [hs1]
      have hst : ∀ x, List.count x (stoppedStreams (stopStreamLocked h id).2)
          = if v.2 == x then 1 else 0 := by
        intro x
        rw [hs2]
        cases h.stop_stream_callback <;> simp [stoppedStreams, List.count_cons]
      have hno : ∀ p, List.count p (removalNotices (stopStreamLocked h id).2)
          ≤ if v.1 == p then 1 else 0 := by
        intro p
        rw [hs2]
        cases h.stop_stream_callback <;> simp [removalNotices, List.count_cons]
      simp only [removeIds, hf]
      constructor
      · intro x
        have e1 := ih1 x
        have e2 := count_mapErase (fun e => e.2.2) h.stream_handles id v hf x
        have e3 := hst x
        rw [hreg] at e1
        rw [stoppedStreams_append, List.count_append]
        simp only at e2
        omega
      · intro p
        have e1 := ih2 p
        have e2 := count_mapErase (fun e => e.2.1) h.stream_handles id v hf p
        have e3 := hno p
        rw [hreg] at e1
        rw [removalNotices_append, List.count_append]
        simp only at e2
        omega

theorem removeIds_created (ids : List Int) (h : Handle) (hrunning : h.stopped = false) :
    createdStreams (removeIds h ids).2 = [] ∧ createdPaths (removeIds h ids).2 = [] := by
  induction ids generalizing h with
  | nil => simp [removeIds, createdStreams, createdPaths]
  | cons id rest ih =>
    cases hf : mapFind h.stream_handles id with
    | none =>
      simp only [removeIds, hf]
      exact ih h hrunning
    | some v =>
      obtain ⟨hs1, hs2⟩ := stopStreamLocked_running h id hrunning v hf
      have hrun' : (stopStreamLocked h id).1.stopped = false := by rw [hs1]; exact hrunning
      obtain ⟨ih1, ih2⟩ := ih (stopStreamLocked h id).1 hrun'
      simp only [removeIds, hf, createdStreams_append, createdPaths_append, ih1, ih2, hs2]
      cases h.stop_stream_callback <;> simp [createdStreams, createdPaths]

theorem teardown_counts (m : StreamMap) (pre : List Action)
    (hpre : stoppedStreams pre = [] ∧ removalNotices pre = [] ∧ createdStreams pre = [] ∧
      createdPaths pre = []) :
    stoppedStreams (pre ++ m.map (fun e => Action.stop_stream e.2.2)) = m.map (fun e => e.2.2) ∧
    removalNotices (pre ++ m.map (fun e => Action.stop_stream e.2.2)) = [] ∧
    createdStreams (pre ++ m.map (fun e => Action.stop_stream e.2.2)) = [] ∧
    createdPaths (pre ++ m.map (fun e => Action.stop_stream e.2.2)) = [] := by
  obtain ⟨p1, p2, p3, p4⟩ := hpre
  rw [stoppedStreams_append, removalNotices_append, createdStreams_append, createdPaths_append,
    p1, p2, p3, p4, stoppedStreams_map_stop, removalNotices_map_stop]
  refine ⟨rfl, rfl, ?_, ?_⟩
  · induction m with
    | nil => rfl
    | cons e rest ih => simpa [createdStreams] using ih
  · induction m with
    | nil => rfl
    | cons e rest ih => simpa [createdPaths] using ih

theorem cleanupFunc_counts (h : Handle) :
    (∀ x, List.count x (stoppedStreams (cleanupFunc h).2) +
        List.count x ((cleanupFunc h).1.stream_handles.map (fun e => e.2.2))
      ≤ List.count x (h.stream_handles.map (fun e => e.2.2))) ∧
    (∀ p, List.count p (removalNotices (cleanupFunc h).2) +
        List.count p ((cleanupFunc h).1.stream_handles.map (fun e => e.2.1))
      ≤ List.count p (h.stream_handles.map (fun e => e.2.1))) ∧
    createdStreams (cleanupFunc h).2 = [] ∧ createdPaths (cleanupFunc h).2 = [] := by
  cases hs : h.stopped with
  | true =>
    have hc : cleanupFunc h = ({ h with stream_handles := [], context := false, closed := true },
        [Action.runLoopStop, Action.sourceInvalidate] ++
          h.stream_handles.map (fun e => Action.stop_stream e.2.2)) := by
      simp [cleanupFunc, cleanupRunLoop, hs]
    obtain ⟨t1, t2, t3, t4⟩ := teardown_counts h.stream_handles
      [Action.runLoopStop, Action.sourceInvalidate] ⟨rfl, rfl, rfl, rfl⟩
    rw [hc]
    simp only [t1, t2, t3, t4]
    simp
  | false =>
    rw [cleanupFunc_running h hs]
    obtain ⟨c1, c2⟩ := removeIds_counts
      (redundantIds (h.stream_handles.map (fun e => (e.1, e.2.1))) ++ h.streams_to_remove)
      { h with streams_to_remove := [] } hs
    obtain ⟨c3, c4⟩ := removeIds_created
      (redundantIds (h.stream_handles.map (fun e => (e.1, e.2.1))) ++ h.streams_to_remove)
      { h with streams_to_remove := [] } hs
    exact ⟨c1, c2, c3, c4⟩

theorem close_cases (h : Handle) (r : Handle × List Action) (hr : close h = some r) :
    r = (h, []) ∨
    r = ({ h with stopped := true, stream_handles := [], context := false, closed := true },
      [Action.sourceSignal, Action.runLoopStop, Action.sourceInvalidate] ++
        h.stream_handles.map (fun e => Action.stop_stream e.2.2)) := by
  unfold close closeRequest at hr
  by_cases hst : h.started = true
  · by_cases hcl : h.closed = true
    · simp [hst, hcl] at hr
      exact Or.inl hr.symm
    · simp [hst, hcl, cleanupFunc, cleanupRunLoop] at hr
      subst hr
      exact Or.inr (by simp [hst])
  · simp [hst] at hr

theorem step_counts (s : Sys) (op : Op) (r : Option Int × Sys × List Action)
    (hr : step s op = some r) :
    (∀ x, List.count x (stoppedStreams r.2.2) +
        List.count x (r.2.1.h.stream_handles.map (fun e => e.2.2))
      ≤ List.count x (s.h.stream_handles.map (fun e => e.2.2)) +
        List.count x (createdStreams r.2.2)) ∧
    (∀ p, List.count p (removalNotices r.2.2) +
        List.count p (r.2.1.h.stream_handles.map (fun e => e.2.1))
      ≤ List.count p (s.h.stream_handles.map (fun e => e.2.1)) +
        List.count p (createdPaths r.2.2)) := by
  cases op with
  | loop =>
    simp only [step, Option.some.injEq] at hr
    subst hr
    simp [loop, stoppedStreams, removalNotices]
  | startStream path latency flags stream startOk =>
    simp only [step, Option.map_eq_some'] at hr
    obtain ⟨y, hy, rfl⟩ := hr
    unfold startStream at hy
    split at hy
    · cases hy
      simp [stoppedStreams, removalNotices]
    · split at hy
      · cases hy
      · split at hy
        · cases hy
          simp [stoppedStreams, removalNotices]
        · split at hy
          · cases hy
            simp [stoppedStreams, removalNotices]
          · cases hy
            constructor
            · intro x
              have := count_mapInsert (fun e => e.2.2) s.h.stream_handles s.current_id
                (path, stream) x
              simp only [stoppedStreams, createdStreams, List.count_cons, List.count_nil,
                zero_add] at this ⊢
              omega
            · intro p
              have := count_mapInsert (fun e => e.2.1) s.h.stream_handles s.current_id
                (path, stream) p
              simp only [removalNotices, createdPaths, List.count_cons, List.count_nil,
                zero_add] at this ⊢
              omega
  | stopStream stream_key =>
    simp only [step, Option.map_eq_some'] at hr
    obtain ⟨y, hy, rfl⟩ := hr
    unfold stopStream at hy
    split at hy
    · cases hy
    · split at hy
      · cases hy
        simp [stoppedStreams, removalNotices]
      · cases hy
        simp [stoppedStreams, removalNotices]
  | cleanupFunc =>
    simp only [step, Option.some.injEq] at hr
    subst hr
    obtain ⟨c1, c2, c3, c4⟩ := cleanupFunc_counts s.h
    constructor
    · intro x
      have := c1 x
      show List.count x (stoppedStreams (cleanupFunc s.h).2) +
        List.count x ((cleanupFunc s.h).1.stream_handles.map (fun e => e.2.2)) ≤ _
      omega
    · intro p
      have := c2 p
      show List.count p (removalNotices (cleanupFunc s.h).2) +
        List.count p ((cleanupFunc s.h).1.stream_handles.map (fun e => e.2.1)) ≤ _
      omega
  | closeRequest =>
    simp only [step, Option.map_eq_some'] at hr
    obtain ⟨y, hy, rfl⟩ := hr
    unfold closeRequest at hy
    split at hy
    · cases hy
    · split at hy
      · cases hy
        simp [stoppedStreams, removalNotices]
      · cases hy
        simp [stoppedStreams, removalNotices]
  | close =>
    simp only [step, Option.map_eq_some'] at hr
    obtain ⟨y, hy, rfl⟩ := hr
    rcases close_cases s.h y hy with rfl | rfl
    · simp [stoppedStreams, removalNotices]
    · obtain ⟨t1, t2, t3, t4⟩ := teardown_counts s.h.stream_handles
        [Action.sourceSignal, Action.runLoopStop, Action.sourceInvalidate] ⟨rfl, rfl, rfl, rfl⟩
      simp only [t1, t2, t3, t4]
      simp
  | defaultCallback count paths flags =>
    simp only [step, Option.some.injEq] at hr
    subst hr
    unfold defaultCallback
    split <;> simp [stoppedStreams, removalNotices]

/-- C16: over any sequence of entry points run on a fresh handle, for every platform stream
the number of `stop_stream` calls on it plus the number of registry entries still holding it is
at most the number of times the platform handed it out on creation, and for every path the
number of stream-removed notices carrying it plus the number of entries still registered under
it is at most the number of streams created for it.  So, the platform handing out pairwise
distinct streams, no stream is stopped twice, however often its id occurs among the redundant
and the pending ids. -/
theorem streams_stopped_at_most_once (current_id : Int) (cb : Bool) (ops : List Op)
    (x : Sys × List Action) (hrun : runOps ⟨current_id, handle cb⟩ ops = some x) :
    (∀ stream, List.count stream (stoppedStreams x.2) +
        List.count stream (x.1.h.stream_handles.map (fun e => e.2.2))
      ≤ List.count stream (createdStreams x.2)) ∧
    (∀ p, List.count p (removalNotices x.2) +
        List.count p (x.1.h.stream_handles.map (fun e => e.2.1))
      ≤ List.count p (createdPaths x.2)) ∧
    ((createdStreams x.2).Nodup → (stoppedStreams x.2).Nodup) := by
  have hinv := runOps_trace_induction
    (fun s T => (∀ stream, List.count stream (stoppedStreams T) +
        List.count stream (s.h.stream_handles.map (fun e => e.2.2))
          ≤ List.count stream (createdStreams T)) ∧
      (∀ p, List.count p (removalNotices T) +
        List.count p (s.h.stream_handles.map (fun e => e.2.1))
          ≤ List.count p (createdPaths T)))
    (by
      intro s T op r hP hr
      obtain ⟨s1, s2⟩ := step_counts s op r hr
      constructor
      · intro stream
        have a := hP.1 stream
        have b := s1 stream
        rw [stoppedStreams_append, createdStreams_append, List.count_append, List.count_append]
        omega
      · intro p
        have a := hP.2 p
        have b := s2 p
        rw [removalNotices_append, createdPaths_append, List.count_append, List.count_append]
        omega)
    ops ⟨current_id, handle cb⟩ x []
    (by simp [handle, stoppedStreams, removalNotices]) hrun
  simp only [List.nil_append] at hinv
  refine ⟨hinv.1, hinv.2, ?_⟩
  intro hnodup
  rw [List.nodup_iff_count_le_one] at hnodup ⊢
  intro a
  have := hinv.1 a
  have := hnodup a
  omega

theorem streams_stopped_at_most_once_witness :
    runOps ⟨0, handle true⟩ [Op.loop, Op.startStream "/a/b".toList 0 0 7 true,
        Op.startStream "/a".toList 0 0 8 true, Op.stopStream 0, Op.stopStream 0,
        Op.cleanupFunc, Op.close]
      = some (⟨2, ⟨false, [], [], true, true, true, true⟩⟩,
        [Action.streamCreate "/a/b".toList 0 0 7, Action.streamStart 7 true,
          Action.sourceSignal, Action.streamCreate "/a".toList 0 0 8,
          Action.streamStart 8 true, Action.sourceSignal, Action.sourceSignal,
          Action.sourceSignal, Action.stop_stream 7,
          Action.stop_stream_callback ["/a/b".toList], Action.sourceSignal,
          Action.runLoopStop, Action.sourceInvalidate, Action.stop_stream 8]) ∧
    ∀ stream, List.count stream (stoppedStreams
        [Action.streamCreate "/a/b".toList 0 0 7, Action.streamStart 7 true,
          Action.sourceSignal, Action.streamCreate "/a".toList 0 0 8,
          Action.streamStart 8 true, Action.sourceSignal, Action.sourceSignal,
          Action.sourceSignal, Action.stop_stream 7,
          Action.stop_stream_callback ["/a/b".toList], Action.sourceSignal,
          Action.runLoopStop, Action.sourceInvalidate, Action.stop_stream 8]) +
        List.count stream ((⟨false, [], [], true, true, true, true⟩ :
          Handle).stream_handles.map (fun e => e.2.2))
      ≤ List.count stream (createdStreams
        [Action.streamCreate "/a/b".toList 0 0 7, Action.streamStart 7 true,
          Action.sourceSignal, Action.streamCreate "/a".toList 0 0 8,
          Action.streamStart 8 true, Action.sourceSignal, Action.sourceSignal,
          Action.sourceSignal, Action.stop_stream 7,
          Action.stop_stream_callback ["/a/b".toList], Action.sourceSignal,
          Action.runLoopStop, Action.sourceInvalidate, Action.stop_stream 8]) :=
  ⟨by decide,
    (streams_stopped_at_most_once 0 true [Op.loop, Op.startStream "/a/b".toList 0 0 7 true,
      Op.startStream "/a".toList 0 0 8 true, Op.stopStream 0, Op.stopStream 0,
      Op.cleanupFunc, Op.close]
      (⟨2, ⟨false, [], [], true, true, true, true⟩⟩,
        [Action.streamCreate "/a/b".toList 0 0 7, Action.streamStart 7 true,
          Action.sourceSignal, Action.streamCreate "/a".toList 0 0 8,
          Action.streamStart 8 true, Action.sourceSignal, Action.sourceSignal,
          Action.sourceSignal, Action.stop_stream 7,
          Action.stop_stream_callback ["/a/b".toList], Action.sourceSignal,
          Action.runLoopStop, Action.sourceInvalidate, Action.stop_stream 8])
      (by decide)).1⟩

/-! ## C19: a Java callback that throws -/

theorem jniCallbackLoop_raise (raises : Path × Int → Bool) (pre : Events) (e : Path × Int)
    (post : Events) (hpre : ∀ a ∈ pre, raises a = false) (he : raises e = true) :
    jniCallbackLoop raises false (pre ++ e :: post)
      = (true, (pre ++ [e]).map (fun a => JniAction.callbackApply a.1 a.2)) := by
  induction pre with
  | nil => simp [jniCallbackLoop, he]
  | cons a rest ih =>
    have ha : raises a = false := hpre a (List.mem_cons_self _ _)
    have hrest := ih (fun b hb => hpre b (List.mem_cons_of_mem _ hb))
    simp [jniCallbackLoop, ha, hrest]

/-- C19, as stated, fails: the Java callback throws on the first event of a batch of two, and
the single event of the next batch is still handed to it. -/
theorem delivery_continues_after_raise_counterexample :
    jniEventBatches (fun e => e.1 == "/x".toList) ⟨true, [], [], true, false, false, true⟩ false
        [(2, ["/x".toList, "/y".toList], [1, 2]), (1, ["/z".toList], [4])]
      = (true, [JniAction.callbackApply "/x".toList 1, JniAction.callbackApply "/z".toList 4]) := by
  decide

/-- C19, amended: on a handle that is not stopped and with no exception pending, when the Java
callback throws on an event of a batch, `jni_callback` has handed it the events of that batch
up to and including that one and none of the later events of the batch.  Nothing stops the
handle: whatever the state of the exception, the first event of every later batch is again
handed to the callback. -/
theorem jni_callback_stops_batch_only (raises : Path × Int → Bool) (h : Handle) (pre : Events)
    (e : Path × Int) (post : Events) (hrunning : h.stopped = false)
    (hpre : ∀ a ∈ pre, raises a = false) (he : raises e = true) :
    jni_callback raises h false (pre ++ e :: post)
      = (true, (pre ++ [e]).map (fun a => JniAction.callbackApply a.1 a.2)) ∧
    ∀ (pending : Bool) (a : Path × Int) (rest : Events), ∃ more,
      (jni_callback raises h pending (a :: rest)).2 = JniAction.callbackApply a.1 a.2 :: more := by
  constructor
  · simp only [jni_callback, hrunning, Bool.not_false, if_true]
    exact jniCallbackLoop_raise raises pre e post hpre he
  · intro pending a rest
    simp only [jni_callback, hrunning, Bool.not_false, if_true, jniCallbackLoop]
    split
    · exact ⟨[], rfl⟩
    · exact ⟨_, rfl⟩

theorem jni_callback_stops_batch_only_witness :
    jni_callback (fun e => e.1 == "/y".toList) ⟨true, [], [], true, false, false, true⟩ false
        ([("/x".toList, 1)] ++ ("/y".toList, 2) :: [("/z".toList, 4)])
      = (true, (([("/x".toList, 1)] ++ [("/y".toList, 2)] : Events)).map
          (fun a => JniAction.callbackApply a.1 a.2)) :=
  (jni_callback_stops_batch_only (fun e => e.1 == "/y".toList)
    ⟨true, [], [], true, false, false, true⟩ [("/x".toList, 1)] ("/y".toList, 2)
    [("/z".toList, 4)] rfl (by decide) (by decide)).1

/-! ## C4: ids of consecutive `startStream` calls -/

theorem startStream_created (current_id : Int) (h : Handle) (p : Path) (latency : Latency)
    (flags : Int) (stream : StreamRef) (hstarted : h.started = true)
    (hrunning : h.stopped = false) (hwf : WF ⟨current_id, h⟩) (hhi : current_id < INT32_MAX)
    (hfree : ∀ e ∈ h.stream_handles, ¬ e.2.1 <+: p) :
    startStream current_id h p latency flags stream true
      = some ⟨current_id, current_id + 1,
          { h with stream_handles := h.stream_handles ++ [(current_id, (p, stream))] },
          [Action.streamCreate p latency flags stream, Action.streamStart stream true,
            Action.sourceSignal]⟩ := by
  have hnone := find_memcmp_none h.stream_handles p hfree
  simp [startStream, hstarted, hrunning, hnone, wrapInt32_succ current_id hwf.1 hhi,
    mapInsert_keysBelow h.stream_handles current_id (p, stream) hwf.2.1]

/-- C4, as stated, fails: `"/a"` and `"/a/b"` are distinct paths, and the two calls return the
same id. -/
theorem startStreams_distinct_paths_counterexample :
    startStreams 0 ⟨true, [], [], true, false, false, true⟩
        [⟨"/a".toList, 0, 0, 7⟩, ⟨"/a/b".toList, 0, 0, 8⟩]
      = some ([0, 0], 1, ⟨true, [(0, "/a".toList, 7)], [], true, false, false, true⟩) ∧
    "/a".toList ≠ "/a/b".toList := by
  decide

/-- C4, amended: on a started, non-stopped handle (registry keys handed out by the counter,
the counter not overflowing), for every sequence of `startStream` calls in which no path has a
registered path or the path of an earlier call of the sequence as a byte-wise prefix, the
platform starting every stream, all calls return, and the ids returned are strictly increasing
and at least the counter value before the sequence: each differs from the id of every earlier
call and from every id handed out before.  The counter ends advanced by the number of calls. -/
theorem startStreams_fresh_ids (current_id : Int) (h : Handle) (calls : List StartCall)
    (hstarted : h.started = true) (hrunning : h.stopped = false) (hwf : WF ⟨current_id, h⟩)
    (hbound : current_id + calls.length ≤ INT32_MAX)
    (hfree : ∀ c ∈ calls, ∀ e ∈ h.stream_handles, ¬ e.2.1 <+: c.path)
    (hseq : calls.Pairwise (fun a b => ¬ a.path <+: b.path)) :
    ∃ ids hfin, startStreams current_id h calls = some (ids, current_id + calls.length, hfin) ∧
      ids.length = calls.length ∧ ids.Pairwise (fun a b => a < b) ∧
      (∀ id ∈ ids, current_id ≤ id ∧ id < current_id + calls.length) ∧
      (∀ id ∈ ids, ∀ e ∈ h.stream_handles, e.1 < id) := by
  have key : ∃ ids hfin,
      startStreams current_id h calls = some (ids, current_id + calls.length, hfin) ∧
      ids.length = calls.length ∧ ids.Pairwise (fun a b => a < b) ∧
      (∀ id ∈ ids, current_id ≤ id ∧ id < current_id + calls.length) := by
    induction calls generalizing current_id h with
    | nil => exact ⟨[], h, by simp [startStreams], rfl, List.Pairwise.nil, by simp⟩
    | cons c rest ih =>
      simp only [List.length_cons, Nat.cast_add, Nat.cast_one] at hbound ⊢
      have hhi : current_id < INT32_MAX := by omega
      have hc := startStream_created current_id h c.path c.latency c.flags c.stream hstarted
        hrunning hwf hhi (hfree c (List.mem_cons_self _ _))
      rw [List.pairwise_cons] at hseq
      have hwf' : WF ⟨current_id + 1,
          { h with stream_handles := h.stream_handles ++ [(current_id, (c.path, c.stream))] }⟩ := by
        have hlo : INT32_MIN ≤ current_id := hwf.1
        have hkb : ∀ e ∈ h.stream_handles, e.1 < current_id := hwf.2.1
        refine ⟨?_, ?_, keysAscending_append _ _ _ hwf.2.1 hwf.2.2⟩
        · show INT32_MIN ≤ current_id + 1
          omega
        intro e he
        rcases List.mem_append.1 he with h1 | h1
        · have := hkb e h1
          show e.1 < current_id + 1
          omega
        · rw [List.mem_singleton] at h1
          subst h1
          show current_id < current_id + 1
          omega
      obtain ⟨ids, hfin, hrun, hlen, hpw, hrange⟩ := ih (current_id + 1)
        { h with stream_handles := h.stream_handles ++ [(current_id, (c.path, c.stream))] }
        hstarted hrunning hwf' (by omega)
        (by
          intro c' hc' e he
          rcases List.mem_append.1 he with h1 | h1
          · exact hfree c' (List.mem_cons_of_mem _ hc') e h1
          · rw [List.mem_singleton] at h1
            subst h1
            exact hseq.1 c' hc')
        hseq.2
      refine ⟨current_id :: ids, hfin, ?_, by simp [hlen], ?_, ?_⟩
      · simp only [startStreams, hc, hrun]
        congr 3
        omega
      · rw [List.pairwise_cons]
        refine ⟨?_, hpw⟩
        intro b hb
        have := (hrange b hb).1
        omega
      · intro id hid
        rcases List.mem_cons.1 hid with h1 | h1
        · subst h1
          constructor <;> omega
        · have := hrange id h1
          constructor <;> omega
  obtain ⟨ids, hfin, h1, h2, h3, h4⟩ := key
  refine ⟨ids, hfin, h1, h2, h3, h4, ?_⟩
  intro id hid e he
  exact lt_of_lt_of_le (hwf.2.1 e he) (h4 id hid).1

theorem startStreams_fresh_ids_witness :
    ∃ ids hfin, startStreams 1 ⟨true, [(0, "/a".toList, 7)], [], true, false, false, true⟩
        [⟨"/b/c".toList, 0, 0, 8⟩, ⟨"/b".toList, 0, 0, 9⟩] = some (ids, 3, hfin) ∧
      ids.Pairwise (fun a b => a < b) := by
  obtain ⟨ids, hfin, h1, _, h3, _⟩ :=
    startStreams_fresh_ids 1 ⟨true, [(0, "/a".toList, 7)], [], true, false, false, true⟩
      [⟨"/b/c".toList, 0, 0, 8⟩, ⟨"/b".toList, 0, 0, 9⟩] rfl rfl (by decide) (by decide)
      (by decide) (by decide)
  exact ⟨ids, hfin, h1, h3⟩

/-! ## C3: `"/a"` and `"/a/b"` in both orders -/

theorem mapFind_ne_none_iff (m : StreamMap) (key : Int) :
    mapFind m key ≠ none ↔ ∃ e ∈ m, e.1 = key := by
  rw [Ne, mapFind_eq_none_iff]
  push_neg
  rfl

theorem find?_first (m : StreamMap) (q : Int × StreamValue → Bool) (e0 : Int × StreamValue)
    (hkeys : KeysAscending m) (hmem : e0 ∈ m) (hq : q e0 = true)
    (hbefore : ∀ e ∈ m, e.1 < e0.1 → q e = false) : m.find? q = some e0 := by
  induction m with
  | nil => simp at hmem
  | cons a rest ih =>
    rw [KeysAscending, List.pairwise_cons] at hkeys
    rcases List.mem_cons.1 hmem with h1 | h1
    · subst h1
      simp [List.find?_cons, hq]
    · have ha : q a = false :=
        hbefore a (List.mem_cons_self _ _) (hkeys.1 e0 h1)
      rw [List.find?_cons, ha]
      exact ih hkeys.2 h1 (fun e he => hbefore e (List.mem_cons_of_mem _ he))

/-- C1: let `startStream(p)` on a handle create an entry and return id `i` (registry keys
handed out by the counter, the counter not overflowing), and let any sequence of entry points
that all return follow.  If id `i` is then still registered and the handle is started and not
stopped, a further `startStream(p)` returns `i`, makes no platform call, leaves the counter
and the handle as they are, and the entry of `i` is the one and only registry entry whose path
is `p`. -/
theorem startStream_same_path_same_id (current_id : Int) (h : Handle) (p : Path)
    (latency : Latency) (flags : Int) (stream : StreamRef) (r1 : StartResult)
    (ops : List Op) (x : Sys × List Action)
    (hwf : WF ⟨current_id, h⟩)
    (hfirst : startStream current_id h p latency flags stream true = some r1)
    (hcreated : Action.streamStart stream true ∈ r1.actions)
    (hbound : current_id + 1 + ops.length ≤ INT32_MAX)
    (hrun : runOps ⟨r1.current_id, r1.h⟩ ops = some x)
    (hstill : mapFind x.1.h.stream_handles r1.ret ≠ none)
    (hstarted : x.1.h.started = true) (hrunning : x.1.h.stopped = false)
    (latency2 : Latency) (flags2 : Int) (stream2 : StreamRef) (startOk2 : Bool) :
    startStream x.1.current_id x.1.h p latency2 flags2 stream2 startOk2
      = some ⟨r1.ret, x.1.current_id, x.1.h, []⟩ ∧
    (r1.ret, (p, stream)) ∈ x.1.h.stream_handles ∧
    (∀ e ∈ x.1.h.stream_handles, e.2.1 = p → e = (r1.ret, (p, stream))) := by
  have hlo : INT32_MIN ≤ current_id := hwf.1
  have hkb : ∀ e ∈ h.stream_handles, e.1 < current_id := hwf.2.1
  have hhi : current_id < INT32_MAX := by
    have : (0 : Int) ≤ ops.length := Int.ofNat_nonneg _
    omega
  have hstep : step ⟨current_id, h⟩ (Op.startStream p latency flags stream true)
      = some (some r1.ret, ⟨r1.current_id, r1.h⟩, r1.actions) := by
    simp [step, hfirst]
  obtain ⟨hwf1, _, _⟩ := step_wf _ _ _ hwf hhi hstep
  rcases step_cases _ _ _ hstep with ⟨_, _, ha⟩ | ⟨p', l', f', s', hop, _, _, hf, hr⟩
  · simp only [assignedId, List.any_eq_true, ite_eq_right_iff, List.cons_ne_self,
      imp_false, not_exists, not_and] at ha
    exact absurd rfl (ha _ hcreated)
  · have hfree : ∀ e ∈ h.stream_handles, ¬ e.2.1 <+: p := by
      cases hop
      exact (find_memcmp_none_iff _ _).1 hf
    have hc := startStream_created current_id h p latency flags stream
      (by cases hop; assumption) (by cases hop; assumption) hwf hhi hfree
    rw [hfirst, Option.some.injEq] at hc
    subst hc
    clear hr hop hf
    have hinv := runOps_invariant
      (fun s => (∀ e ∈ s.h.stream_handles, e.1 < current_id → ¬ e.2.1 <+: p) ∧
        (∀ e ∈ s.h.stream_handles, e.1 = current_id → e.2 = (p, stream)) ∧
        ((∃ e ∈ s.h.stream_handles, e.1 = current_id) →
          ∀ e ∈ s.h.stream_handles, e.2.1 = p → e.1 = current_id) ∧
        current_id < s.current_id)
      (by
        intro s op r hwfs _ hP hs
        obtain ⟨pa, pb, pc, pd⟩ := hP
        rcases step_cases s op r hs with
          ⟨hc, ⟨q, hq⟩, _⟩ | ⟨path, lat, fl, st, _, _, _, hf, rfl⟩
        · have hsub : ∀ e ∈ r.2.1.h.stream_handles, e ∈ s.h.stream_handles := by
            intro e he
            rw [hq] at he
            exact (List.mem_filter.1 he).1
          refine ⟨fun e he => pa e (hsub e he), fun e he => pb e (hsub e he), ?_, ?_⟩
          · rintro ⟨e0, he0, hk0⟩ e he hp
            exact pc ⟨e0, hsub e0 he0, hk0⟩ e (hsub e he) hp
          · rw [hc]; exact pd
        · have hreg : ∀ e, e ∈ mapInsert s.h.stream_handles s.current_id (path, st) ↔
              e ∈ s.h.stream_handles ∨ e = (s.current_id, (path, st)) := by
            intro e
            rw [created_registry s path st hwfs, List.mem_append, List.mem_singleton]
          have hfree' := (find_memcmp_none_iff _ _).1 hf
          have hw := wrapInt32_succ s.current_id hwfs.1 (by assumption)
          refine ⟨?_, ?_, ?_, ?_⟩
          · intro e he hlt
            rcases (hreg e).1 he with h1 | h1
            · exact pa e h1 hlt
            · subst h1
              exact absurd hlt (by show ¬ s.current_id < current_id; omega)
          · intro e he hk
            rcases (hreg e).1 he with h1 | h1
            · exact pb e h1 hk
            · subst h1
              exact absurd hk (by show ¬ s.current_id = current_id; omega)
          · rintro ⟨e0, he0, hk0⟩ e he hp
            have h0 : e0 ∈ s.h.stream_handles := by
              rcases (hreg e0).1 he0 with h1 | h1
              · exact h1
              · subst h1
                exact absurd hk0 (by show ¬ s.current_id = current_id; omega)
            rcases (hreg e).1 he with h1 | h1
            · exact pc ⟨e0, h0, hk0⟩ e h1 hp
            · subst h1
              have hp0 : e0.2.1 = p := by rw [pb e0 h0 hk0]
              have hp' : path = p := hp
              exact absurd (by rw [hp0, hp']) (hfree' e0 h0)
          · show current_id < wrapInt32 (s.current_id + 1)
            rw [hw]
            omega)
      ops _ x hwf1 hbound
      (by
        refine ⟨?_, ?_, ?_, ?_⟩
        · intro e he hlt
          rcases List.mem_append.1 he with h1 | h1
          · exact hfree e h1
          · rw [List.mem_singleton] at h1
            subst h1
            exact absurd hlt (lt_irrefl _)
        · intro e he hk
          rcases List.mem_append.1 he with h1 | h1
          · have := hkb e h1
            omega
          · rw [List.mem_singleton] at h1
            subst h1
            rfl
        · rintro _ e he hp
          rcases List.mem_append.1 he with h1 | h1
          · exact absurd (by rw [hp]) (hfree e h1)
          · rw [List.mem_singleton] at h1
            subst h1
            rfl
        · show current_id < current_id + 1
          omega)
      hrun
    obtain ⟨⟨pa, pb, pc, _⟩, hwfx, _, _⟩ := hinv
    obtain ⟨e0, he0, hk0⟩ := (mapFind_ne_none_iff _ _).1 hstill
    have hk0' : e0.1 = current_id := hk0
    have he0eq : e0 = (current_id, (p, stream)) := Prod.ext hk0' (pb e0 he0 hk0')
    subst he0eq
    have hfind := find?_first x.1.h.stream_handles (fun e => memcmpMatches e.2.1 p)
      (current_id, (p, stream)) hwfx.2.2 he0 (by simp [memcmpMatches])
      (by
        intro e he hlt
        have := pa e he hlt
        show memcmpMatches e.2.1 p = false
        rw [Bool.eq_false_iff]
        intro hm
        exact this (List.isPrefixOf_iff_prefix.1 hm))
    refine ⟨?_, he0, ?_⟩
    · simp [startStream, hstarted, hrunning, hfind]
    · intro e he hp
      have hk := pc ⟨_, he0, rfl⟩ e he hp
      exact keysAscending_unique _ hwfx.2.2 e _ he he0 hk

theorem startStream_same_path_same_id_witness :
    startStream 2 ⟨true, [(0, "/a".toList, 7), (1, "/b".toList, 9)], [], true, false, false, true⟩
        "/a".toList 0 0 8 true
      = some ⟨0, 2, ⟨true, [(0, "/a".toList, 7), (1, "/b".toList, 9)], [], true, false, false,
          true⟩, []⟩ :=
  (startStream_same_path_same_id 0 ⟨true, [], [], true, false, false, true⟩ "/a".toList 0 0 7
    ⟨0, 1, ⟨true, [(0, "/a".toList, 7)], [], true, false, false, true⟩,
      [Action.streamCreate "/a".toList 0 0 7, Action.streamStart 7 true, Action.sourceSignal]⟩
    [Op.startStream "/b".toList 0 0 9 true, Op.cleanupFunc]
    (⟨2, ⟨true, [(0, "/a".toList, 7), (1, "/b".toList, 9)], [], true, false, false, true⟩⟩,
      [Action.streamCreate "/b".toList 0 0 9, Action.streamStart 9 true, Action.sourceSignal])
    (by decide) (by decide) (by decide) (by decide) (by decide) (by decide) rfl rfl
    0 0 8 true).1

/-! ## C21: the batch built by `defaultCallback` -/

theorem flagsToInt32_bits (f : Nat) (hf : f < 4294967296) :
    flagsToInt32 f % 4294967296 = f ∧ INT32_MIN ≤ flagsToInt32 f ∧ flagsToInt32 f ≤ INT32_MAX := by
  unfold flagsToInt32 wrapInt32 INT32_MIN INT32_MAX
  have h1 : f % 4294967296 = f := Nat.mod_eq_of_lt hf
  rw [h1]
  simp only [Int.ofNat_eq_coe]
  refine ⟨?_, ?_, ?_⟩ <;> omega

/-- C21: on a non-stopped handle, for a platform callback with `count` events whose path and
flag arrays hold at least `count` elements, the flags being 32-bit words, `defaultCallback`
makes exactly one call of the consumer callback; the batch handed over has exactly `count`
elements, its `i`-th element is `(paths[i], flags[i])` for every `i < count`, and the flag
value delivered is the `int32_t` with the same 32 bits as the platform's word: it is congruent
to the word modulo `2^32` and lies in the `int32_t` range. -/
theorem defaultCallback_batch (h : Handle) (count : Nat) (paths : List Path) (flags : List Nat)
    (hrunning : h.stopped = false) (hpaths : count ≤ paths.length)
    (hflags : count ≤ flags.length) (hword : ∀ f ∈ flags, f < 4294967296) :
    ∃ events, defaultCallback h count paths flags = [Action.callback events] ∧
      events.length = count ∧
      ∀ i, i < count → ∃ p f, paths[i]? = some p ∧ flags[i]? = some f ∧
        events[i]? = some (p, flagsToInt32 f) ∧
        flagsToInt32 f % 4294967296 = f ∧
        INT32_MIN ≤ flagsToInt32 f ∧ flagsToInt32 f ≤ INT32_MAX := by
  refine ⟨buildEvents count paths flags, by simp [defaultCallback, hrunning],
    by simp [buildEvents], ?_⟩
  intro i hi
  have hip : i < paths.length := lt_of_lt_of_le hi hpaths
  have hif : i < flags.length := lt_of_lt_of_le hi hflags
  refine ⟨paths[i], flags[i], List.getElem?_eq_getElem hip, List.getElem?_eq_getElem hif, ?_,
    flagsToInt32_bits _ (hword _ (List.getElem_mem hif))⟩
  simp [buildEvents, hi, List.getD_eq_getElem?_getD, List.getElem?_eq_getElem hip,
    List.getElem?_eq_getElem hif]

theorem defaultCallback_batch_witness :
    ∃ events, defaultCallback ⟨true, [], [], true, false, false, true⟩ 2
        ["/x".toList, "/y".toList, "/z".toList] [4294967295, 256]
        = [Action.callback events] ∧ events.length = 2 := by
  obtain ⟨events, h1, h2, _⟩ :=
    defaultCallback_batch ⟨true, [], [], true, false, false, true⟩ 2
      ["/x".toList, "/y".toList, "/z".toList] [4294967295, 256] rfl (by decide) (by decide)
      (by decide)
  exact ⟨events, h1, h2⟩

/-! ## C22: registry entries are never rewritten -/

theorem mapFind_mem (m : StreamMap) (key : Int) (v : StreamValue)
    (hv : mapFind m key = some v) : (key, v) ∈ m := by
  unfold mapFind at hv
  rw [Option.map_eq_some'] at hv
  obtain ⟨e, he, rfl⟩ := hv
  have hk : e.1 = key := by simpa using List.find?_some he
  have hm := List.mem_of_find?_eq_some he
  rw [← hk]
  exact hm

/-- C22: on a state whose registry is a map of keys the counter has handed out, for every
entry point that returns and every id that is a registry key both before and after it, the
path and the platform stream stored under that id are the same before and after. -/
theorem step_keeps_entries (s : Sys) (op : Op) (r : Option Int × Sys × List Action)
    (hwf : WF s) (hr : step s op = some r) (id : Int) (v v' : StreamValue)
    (hv : mapFind s.h.stream_handles id = some v)
    (hv' : mapFind r.2.1.h.stream_handles id = some v') : v' = v := by
  have hm := mapFind_mem _ _ _ hv
  have hm' := mapFind_mem _ _ _ hv'
  have hold : (id, v') ∈ s.h.stream_handles := by
    rcases step_cases s op r hr with ⟨_, ⟨q, hq⟩, _⟩ | ⟨path, lat, fl, st, _, _, _, _, rfl⟩
    · rw [hq] at hm'
      exact (List.mem_filter.1 hm').1
    · change (id, v') ∈ mapInsert s.h.stream_handles s.current_id (path, st) at hm'
      rw [created_registry s path st hwf] at hm'
      rcases List.mem_append.1 hm' with h1 | h1
      · exact h1
      · rw [List.mem_singleton] at h1
        have hid : id = s.current_id := congrArg Prod.fst h1
        have := hwf.2.1 _ hm
        exact absurd hid (by show ¬ id = s.current_id; omega)
  have := keysAscending_unique _ hwf.2.2 (id, v') (id, v) hold hm rfl
  exact congrArg Prod.snd this

theorem step_keeps_entries_witness :
    (("/a".toList, 7) : StreamValue) = ("/a".toList, 7) :=
  step_keeps_entries ⟨2, ⟨true, [(0, "/a".toList, 7), (1, "/a/b".toList, 8)], [], true, false,
      false, true⟩⟩ Op.cleanupFunc
    (none, ⟨2, ⟨true, [(0, "/a".toList, 7)], [], true, false, false, true⟩⟩,
      [Action.stop_stream 8, Action.stop_stream_callback ["/a/b".toList]])
    (by decide) (by decide) 0 ("/a".toList, 7) ("/a".toList, 7) (by decide) (by decide)

/-! ## C25: `startStream` under a registered prefix -/

/-- C25: on a started, non-stopped handle whose registry is a map, if the path of a registered
entry is a byte-wise prefix of `p` (equal to `p` or not) and that entry has the lowest id among
the entries with such a path, then `startStream(p)` returns its id and makes no call, leaving
counter and handle as they were; and a `startStream(p)` call that reaches
`FSEventStreamCreate` was made with no registered path a byte-wise prefix of `p`. -/
theorem startStream_prefix_returns_lowest_id (current_id : Int) (h : Handle) (p : Path)
    (latency : Latency) (flags : Int) (stream : StreamRef) (startOk : Bool)
    (hstarted : h.started = true) (hrunning : h.stopped = false)
    (hkeys : KeysAscending h.stream_handles) :
    (∀ e0 ∈ h.stream_handles, e0.2.1 <+: p →
      (∀ e ∈ h.stream_handles, e.2.1 <+: p → e0.1 ≤ e.1) →
      startStream current_id h p latency flags stream startOk
        = some ⟨e0.1, current_id, h, []⟩) ∧
    (∀ r, startStream current_id h p latency flags stream startOk = some r →
      createdStreams r.actions ≠ [] → ∀ e ∈ h.stream_handles, ¬ e.2.1 <+: p) := by
  constructor
  · intro e0 he0 hp hmin
    have hfind := find?_first h.stream_handles (fun e => memcmpMatches e.2.1 p) e0 hkeys he0
      (by simpa [memcmpMatches] using hp)
      (by
        intro e he hlt
        show memcmpMatches e.2.1 p = false
        rw [Bool.eq_false_iff]
        intro hm
        have := hmin e he (List.isPrefixOf_iff_prefix.1 hm)
        omega)
    simp [startStream, hstarted, hrunning, hfind]
  · intro r hr hcreated
    unfold startStream at hr
    split at hr
    · cases hr
      exact absurd rfl hcreated
    · split at hr
      · cases hr
      · split at hr
        · cases hr
          exact absurd rfl hcreated
        · rename_i hf
          exact (find_memcmp_none_iff _ _).1 hf

theorem startStream_prefix_returns_lowest_id_witness :
    startStream 3 ⟨true, [(0, "/b".toList, 7), (1, "/a/b".toList, 8), (2, "/a".toList, 9)], [],
        true, false, false, true⟩ "/a/b/c".toList 0 0 10 true
      = some ⟨1, 3, ⟨true, [(0, "/b".toList, 7), (1, "/a/b".toList, 8), (2, "/a".toList, 9)],
          [], true, false, false, true⟩, []⟩ :=
  (startStream_prefix_returns_lowest_id 3
    ⟨true, [(0, "/b".toList, 7), (1, "/a/b".toList, 8), (2, "/a".toList, 9)], [], true, false,
      false, true⟩ "/a/b/c".toList 0 0 10 true rfl rfl (by decide)).1
    (1, "/a/b".toList, 8) (by decide) (by decide) (by decide)

/-! ## C29: nothing reaches the callbacks of a stopped handle -/

theorem sinkCalls_map_stop (m : StreamMap) :
    sinkCalls (m.map (fun e => Action.stop_stream e.2.2)) = [] := by
  induction m with
  | nil => rfl
  | cons e rest ih => simpa [sinkCalls] using ih

theorem sinkCalls_append (xs ys : List Action) :
    sinkCalls (xs ++ ys) = sinkCalls xs ++ sinkCalls ys := by
  induction xs with
  | nil => rfl
  | cons a rest ih => cases a <;> simp [sinkCalls, ih]

/-- C29: on a handle whose `stopped` flag is set, the platform event callback makes no call
at all, so the events are dropped, and the run loop source callback, the teardown
`cleanupRunLoop`, the loop-side `stopStream` and `close` call neither the event callback nor
the stream-removed callback: the streams that the teardown stops are not announced. -/
theorem stopped_handle_calls_no_callback (h : Handle) (hstopped : h.stopped = true)
    (count : Nat) (paths : List Path) (flags : List Nat) (id : Int) :
    defaultCallback h count paths flags = [] ∧
    sinkCalls (cleanupFunc h).2 = [] ∧
    sinkCalls (cleanupRunLoop h).2 = [] ∧
    stoppedStreams (cleanupRunLoop h).2 = h.stream_handles.map (fun e => e.2.2) ∧
    stopStreamLocked h id = (h, []) ∧
    (∀ r, close h = some r → sinkCalls r.2 = []) := by
  have hrl : sinkCalls (cleanupRunLoop h).2 = [] := by
    simp only [cleanupRunLoop, sinkCalls_append, sinkCalls_map_stop]
    rfl
  refine ⟨by simp [defaultCallback, hstopped], ?_, hrl, ?_, by simp [stopStreamLocked, hstopped],
    ?_⟩
  · simpa [cleanupFunc, hstopped] using hrl
  · simp only [cleanupRunLoop, stoppedStreams_append, stoppedStreams_map_stop]
    rfl
  · intro r hr
    rcases close_cases h r hr with rfl | rfl
    · rfl
    · simp only [sinkCalls_append, sinkCalls_map_stop]
      rfl

theorem stopped_handle_calls_no_callback_witness :
    defaultCallback ⟨true, [(0, "/a".toList, 7)], [0], true, true, false, true⟩ 1
        ["/a/x".toList] [256] = [] ∧
    sinkCalls (cleanupFunc ⟨true, [(0, "/a".toList, 7)], [0], true, true, false, true⟩).2 = [] :=
  ⟨(stopped_handle_calls_no_callback
      ⟨true, [(0, "/a".toList, 7)], [0], true, true, false, true⟩ rfl 1 ["/a/x".toList] [256]
      0).1,
    by decide⟩

/-! ## The redundant ids of a maintenance pass -/

theorem mem_redundantPair_iff (l r : Int × Path) (x : Int) :
    x ∈ redundantPair l r ↔
      (l.2.length < r.2.length ∧ l.2 <+: r.2 ∧ x = r.1) ∨
      (r.2.length ≤ l.2.length ∧ r.2 <+: l.2 ∧ x = l.1) := by
  unfold redundantPair
  by_cases hlen : r.2.length > l.2.length
  · have hle : ¬ r.2.length ≤ l.2.length := by omega
    by_cases hp : l.2 <+: r.2
    · simp [hlen, (compareEq_spec l.2 r.2).2 hp, hp, hle]
    · have hc : compareEq l.2 0 l.2.length r.2 0 l.2.length = false := by
        cases hcmp : compareEq l.2 0 l.2.length r.2 0 l.2.length with
        | false => rfl
        | true => exact absurd ((compareEq_spec l.2 r.2).1 hcmp) hp
      simp [hlen, hc, hp, hle]
  · have hlt : ¬ l.2.length < r.2.length := by omega
    have hle : r.2.length ≤ l.2.length := by omega
    by_cases hp : r.2 <+: l.2
    · simp [hlen, (compareEq_spec r.2 l.2).2 hp, hp, hlt, hle]
    · have hc : compareEq r.2 0 r.2.length l.2 0 r.2.length = false := by
        cases hcmp : compareEq r.2 0 r.2.length l.2 0 r.2.length with
        | false => rfl
        | true => exact absurd ((compareEq_spec r.2 l.2).1 hcmp) hp
      simp [hlen, hc, hp, hlt]

theorem mem_redundantIds_cons (l : Int × Path) (rest : List (Int × Path)) (x : Int) :
    x ∈ redundantIds (l :: rest) ↔
      (∃ r ∈ rest, x ∈ redundantPair l r) ∨ x ∈ redundantIds rest := by
  simp only [redundantIds, List.mem_append, List.mem_flatten, List.mem_map]
  constructor
  · rintro (⟨ys, ⟨r, hr, rfl⟩, hx⟩ | h)
    · exact Or.inl ⟨r, hr, hx⟩
    · exact Or.inr h
  · rintro (⟨r, hr, hx⟩ | h)
    · exact Or.inl ⟨_, ⟨r, hr, rfl⟩, hx⟩
    · exact Or.inr h

theorem redundantIds_keys (streams : List (Int × Path)) (x : Int)
    (hx : x ∈ redundantIds streams) : ∃ e ∈ streams, e.1 = x := by
  induction streams with
  | nil => simp [redundantIds] at hx
  | cons l rest ih =>
    rcases (mem_redundantIds_cons l rest x).1 hx with ⟨r, hr, hxr⟩ | h
    · rcases (mem_redundantPair_iff l r x).1 hxr with ⟨_, _, rfl⟩ | ⟨_, _, rfl⟩
      · exact ⟨r, List.mem_cons_of_mem _ hr, rfl⟩
      · exact ⟨l, List.mem_cons_self _ _, rfl⟩
    · obtain ⟨e, he, hk⟩ := ih h
      exact ⟨e, List.mem_cons_of_mem _ he, hk⟩

theorem redundantIds_pair (streams : List (Int × Path)) (a b : Int × Path)
    (ha : a ∈ streams) (hb : b ∈ streams) (hne : a.1 ≠ b.1) (hp : a.2 <+: b.2) :
    a.1 ∈ redundantIds streams ∨ b.1 ∈ redundantIds streams := by
  induction streams with
  | nil => simp at ha
  | cons l rest ih =>
    rcases List.mem_cons.1 ha with hal | har
    · rcases List.mem_cons.1 hb with hbl | hbr
      · exact absurd (by rw [hal, hbl]) hne
      · subst hal
        by_cases hlen : a.2.length < b.2.length
        · exact Or.inr ((mem_redundantIds_cons a rest b.1).2
            (Or.inl ⟨b, hbr, (mem_redundantPair_iff a b b.1).2 (Or.inl ⟨hlen, hp, rfl⟩)⟩))
        · have hle := hp.length_le
          have heq : a.2 = b.2 := hp.eq_of_length (by omega)
          refine Or.inl ((mem_redundantIds_cons a rest a.1).2
            (Or.inl ⟨b, hbr, (mem_redundantPair_iff a b a.1).2 (Or.inr ⟨by omega, ?_, rfl⟩)⟩))
          rw [heq]
    · rcases List.mem_cons.1 hb with hbl | hbr
      · subst hbl
        have hle := hp.length_le
        exact Or.inr ((mem_redundantIds_cons b rest b.1).2
          (Or.inl ⟨a, har, (mem_redundantPair_iff b a b.1).2 (Or.inr ⟨hle, hp, rfl⟩)⟩))
      · rcases ih har hbr with h1 | h1
        · exact Or.inl ((mem_redundantIds_cons l rest a.1).2 (Or.inr h1))
        · exact Or.inr ((mem_redundantIds_cons l rest b.1).2 (Or.inr h1))

theorem redundantIds_nil (streams : List (Int × Path))
    (hpw : streams.Pairwise (fun l r => ¬ l.2 <+: r.2 ∧ ¬ r.2 <+: l.2)) :
    redundantIds streams = [] := by
  induction streams with
  | nil => rfl
  | cons l rest ih =>
    rw [List.pairwise_cons] at hpw
    rw [List.eq_nil_iff_forall_not_mem]
    intro x hx
    rcases (mem_redundantIds_cons l rest x).1 hx with ⟨r, hr, hxr⟩ | h
    · rcases (mem_redundantPair_iff l r x).1 hxr with ⟨_, hp, _⟩ | ⟨_, hp, _⟩
      · exact (hpw.1 r hr).1 hp
      · exact (hpw.1 r hr).2 hp
    · rw [ih hpw.2] at h
      simp at h

theorem redundantIds_coverage (streams : List (Int × Path))
    (hkeys : (streams.map (fun e => e.1)).Nodup) :
    ∀ e ∈ streams, ∃ s ∈ streams, s.1 ∉ redundantIds streams ∧ s.2 <+: e.2 := by
  induction streams with
  | nil => intro e he; simp at he
  | cons l rest ih =>
    rw [List.map_cons, List.nodup_cons] at hkeys
    obtain ⟨hl, hrest⟩ := hkeys
    have ih' := ih hrest
    have hlkey : ∀ r ∈ rest, r.1 ≠ l.1 := fun r hr heq =>
      hl (List.mem_map.2 ⟨r, hr, heq⟩)
    have huniq : ∀ a ∈ rest, ∀ b ∈ rest, a.1 = b.1 → a = b := by
      intro a ha b hb hab
      exact List.inj_on_of_nodup_map hrest ha hb hab
    -- a survivor of `rest` that `l` does not cover survives in the whole list
    have keep : ∀ s ∈ rest, s.1 ∉ redundantIds rest →
        ¬ (l.2.length < s.2.length ∧ l.2 <+: s.2) → s.1 ∉ redundantIds (l :: rest) := by
      intro s hs hsr hnot hmem
      rcases (mem_redundantIds_cons l rest s.1).1 hmem with ⟨r, hr, hxr⟩ | h
      · rcases (mem_redundantPair_iff l r s.1).1 hxr with ⟨h1, h2, h3⟩ | ⟨_, _, h3⟩
        · have : s = r := huniq s hs r hr h3
          subst this
          exact hnot ⟨h1, h2⟩
        · exact hlkey s hs h3
      · exact hsr h
    by_cases hcase : ∃ r ∈ rest, r.2 <+: l.2
    · -- `l` is redundant: a survivor of `rest` below `r` covers everything `l` covers
      obtain ⟨r, hr, hrl⟩ := hcase
      obtain ⟨s', hs', hs'r, hs'p⟩ := ih' r hr
      have hs'l : s'.2 <+: l.2 := hs'p.trans hrl
      have hs'keep : s'.1 ∉ redundantIds (l :: rest) :=
        keep s' hs' hs'r (fun hc => by
          have := hs'l.length_le
          omega)
      intro e he
      rcases List.mem_cons.1 he with hel | her
      · subst hel
        exact ⟨s', List.mem_cons_of_mem _ hs', hs'keep, hs'l⟩
      · obtain ⟨s, hs, hsr, hsp⟩ := ih' e her
        by_cases hcov : l.2.length < s.2.length ∧ l.2 <+: s.2
        · exact ⟨s', List.mem_cons_of_mem _ hs', hs'keep, (hs'l.trans hcov.2).trans hsp⟩
        · exact ⟨s, List.mem_cons_of_mem _ hs, keep s hs hsr hcov, hsp⟩
    · -- `l` survives
      have hlkeep : l.1 ∉ redundantIds (l :: rest) := by
        intro hmem
        rcases (mem_redundantIds_cons l rest l.1).1 hmem with ⟨r, hr, hxr⟩ | h
        · rcases (mem_redundantPair_iff l r l.1).1 hxr with ⟨_, _, h3⟩ | ⟨_, h2, _⟩
          · exact hlkey r hr h3.symm
          · exact hcase ⟨r, hr, h2⟩
        · obtain ⟨e, he, hk⟩ := redundantIds_keys rest l.1 h
          exact hlkey e he hk
      intro e he
      rcases List.mem_cons.1 he with hel | her
      · subst hel
        exact ⟨e, List.mem_cons_self _ _, hlkeep, List.prefix_refl _⟩
      · obtain ⟨s, hs, hsr, hsp⟩ := ih' e her
        by_cases hcov : l.2.length < s.2.length ∧ l.2 <+: s.2
        · exact ⟨l, List.mem_cons_self _ _, hlkeep, hcov.2.trans hsp⟩
        · exact ⟨s, List.mem_cons_of_mem _ hs, keep s hs hsr hcov, hsp⟩

theorem mem_cleanupFunc_registry (h : Handle) (hrunning : h.stopped = false)
    (e : Int × StreamValue) :
    e ∈ (cleanupFunc h).1.stream_handles ↔
      e ∈ h.stream_handles ∧
        e.1 ∉ redundantIds (h.stream_handles.map (fun e => (e.1, e.2.1))) ∧
        e.1 ∉ h.streams_to_remove := by
  rw [cleanupFunc_running h hrunning, removeIds_handle _ { h with streams_to_remove := [] } hrunning]
  simp only [List.mem_filter, Bool.not_eq_true', List.contains_eq_any_beq, List.any_eq_false,
    beq_iff_eq, List.mem_append]
  constructor
  · rintro ⟨he, hx⟩
    exact ⟨he, fun h1 => hx _ (Or.inl h1) rfl, fun h1 => hx _ (Or.inr h1) rfl⟩
  · rintro ⟨he, h1, h2⟩
    refine ⟨he, ?_⟩
    rintro x (hx | hx) hxe
    · exact h1 (hxe ▸ hx)
    · exact h2 (hxe ▸ hx)

theorem survivors_not_nested (m : StreamMap) (hkeys : KeysAscending m)
    (e1 e2 : Int × StreamValue) (h1 : e1 ∈ m) (h2 : e2 ∈ m)
    (hr1 : e1.1 ∉ redundantIds (m.map (fun e => (e.1, e.2.1))))
    (hr2 : e2.1 ∉ redundantIds (m.map (fun e => (e.1, e.2.1))))
    (hne : e1 ≠ e2) : ¬ e1.2.1 <+: e2.2.1 := by
  intro hp
  have hk : e1.1 ≠ e2.1 := fun hk => hne (keysAscending_unique m hkeys e1 e2 h1 h2 hk)
  rcases redundantIds_pair (m.map (fun e => (e.1, e.2.1))) (e1.1, e1.2.1) (e2.1, e2.2.1)
    (List.mem_map.2 ⟨e1, h1, rfl⟩) (List.mem_map.2 ⟨e2, h2, rfl⟩) hk hp with h | h
  · exact hr1 h
  · exact hr2 h

theorem keysAscending_nodup_keys (m : StreamMap) (hkeys : KeysAscending m) :
    ((m.map (fun e => (e.1, e.2.1))).map (fun e => e.1)).Nodup := by
  rw [List.map_map]
  unfold KeysAscending at hkeys
  rw [List.Nodup, List.pairwise_map]
  exact hkeys.imp (fun hlt => ne_of_lt hlt)

theorem registry_coverage (m : StreamMap) (hkeys : KeysAscending m) (e : Int × StreamValue)
    (he : e ∈ m) :
    ∃ s ∈ m, s.1 ∉ redundantIds (m.map (fun e => (e.1, e.2.1))) ∧ s.2.1 <+: e.2.1 := by
  obtain ⟨s, hs, hsr, hsp⟩ := redundantIds_coverage (m.map (fun e => (e.1, e.2.1)))
    (keysAscending_nodup_keys m hkeys) (e.1, e.2.1) (List.mem_map.2 ⟨e, he, rfl⟩)
  obtain ⟨s0, hs0, rfl⟩ := List.mem_map.1 hs
  exact ⟨s0, hs0, hsr, hsp⟩

/-! ## C24: no prefix pair is left by a maintenance pass -/

/-- C24: on a non-stopped handle whose registry is a map, whatever paths it holds (equal and
nested ones included) and whatever the pending-removal list, the registry left by one
maintenance pass holds no two distinct entries of which one has a path that is a byte-wise
prefix of the path of the other; in particular no two entries with equal paths. -/
theorem cleanupFunc_leaves_no_prefix_pair (h : Handle) (hrunning : h.stopped = false)
    (hkeys : KeysAscending h.stream_handles) :
    ∀ e1 ∈ (cleanupFunc h).1.stream_handles, ∀ e2 ∈ (cleanupFunc h).1.stream_handles,
      e1 ≠ e2 → ¬ e1.2.1 <+: e2.2.1 := by
  intro e1 he1 e2 he2 hne
  obtain ⟨h1, r1, _⟩ := (mem_cleanupFunc_registry h hrunning e1).1 he1
  obtain ⟨h2, r2, _⟩ := (mem_cleanupFunc_registry h hrunning e2).1 he2
  exact survivors_not_nested h.stream_handles hkeys e1 e2 h1 h2 r1 r2 hne

theorem cleanupFunc_leaves_no_prefix_pair_witness :
    (cleanupFunc ⟨true, [(0, "/a".toList, 7), (1, "/a".toList, 8), (2, "/a/b".toList, 9),
        (3, "/c".toList, 10), (4, "/d".toList, 11)], [4, 6], true, false, false, true⟩).1.stream_handles
      = [(1, "/a".toList, 8), (3, "/c".toList, 10)] ∧
    ¬ (((1 : Int), ("/a".toList, (8 : StreamRef))) : Int × StreamValue).2.1
      <+: (((3 : Int), ("/c".toList, (10 : StreamRef))) : Int × StreamValue).2.1 :=
  ⟨by decide,
    cleanupFunc_leaves_no_prefix_pair ⟨true, [(0, "/a".toList, 7), (1, "/a".toList, 8),
      (2, "/a/b".toList, 9), (3, "/c".toList, 10), (4, "/d".toList, 11)], [4, 6], true, false,
      false, true⟩ rfl (by decide) (1, "/a".toList, 8) (by decide) (3, "/c".toList, 10)
      (by decide) (by decide)⟩

/-! ## C26, C27: what stays covered -/

/-- C26: on a non-stopped handle whose registry is a map and whose pending-removal list is
empty, for every entry registered before a maintenance pass some entry registered after the
pass has a path that is a byte-wise prefix of its path (possibly the same path); so the pass
does not empty a registry that was not empty. -/
theorem cleanupFunc_keeps_coverage (h : Handle) (hrunning : h.stopped = false)
    (hkeys : KeysAscending h.stream_handles) (hpending : h.streams_to_remove = []) :
    (∀ e ∈ h.stream_handles, ∃ s ∈ (cleanupFunc h).1.stream_handles, s.2.1 <+: e.2.1) ∧
    (h.stream_handles ≠ [] → (cleanupFunc h).1.stream_handles ≠ []) := by
  have hcov : ∀ e ∈ h.stream_handles,
      ∃ s ∈ (cleanupFunc h).1.stream_handles, s.2.1 <+: e.2.1 := by
    intro e he
    obtain ⟨s, hs, hsr, hsp⟩ := registry_coverage h.stream_handles hkeys e he
    exact ⟨s, (mem_cleanupFunc_registry h hrunning s).2 ⟨hs, hsr, by simp [hpending]⟩, hsp⟩
  refine ⟨hcov, ?_⟩
  intro hne hnil
  obtain ⟨e, he⟩ := List.exists_mem_of_ne_nil _ hne
  obtain ⟨s, hs, _⟩ := hcov e he
  rw [hnil] at hs
  simp at hs

theorem cleanupFunc_keeps_coverage_witness :
    (cleanupFunc ⟨true, [(0, "/a/b".toList, 7), (1, "/a".toList, 8), (2, "/a".toList, 9)], [],
        true, false, false, true⟩).1.stream_handles = [(2, "/a".toList, 9)] ∧
    ((⟨true, [(0, "/a/b".toList, 7), (1, "/a".toList, 8), (2, "/a".toList, 9)], [],
        true, false, false, true⟩ : Handle).stream_handles ≠ [] →
      (cleanupFunc ⟨true, [(0, "/a/b".toList, 7), (1, "/a".toList, 8), (2, "/a".toList, 9)], [],
        true, false, false, true⟩).1.stream_handles ≠ []) :=
  ⟨by decide,
    (cleanupFunc_keeps_coverage ⟨true, [(0, "/a/b".toList, 7), (1, "/a".toList, 8),
      (2, "/a".toList, 9)], [], true, false, false, true⟩ rfl (by decide) rfl).2⟩

/-- C27, as stated, fails: `"/a/b"` is registered under id 0 and `"/a"` under id 1, and only
id 1 is pending.  The pass finds id 0 redundant against the registry as it was and removes
both, leaving the registry empty: `"/a/b"` is no longer covered. -/
theorem pending_cover_removed_counterexample :
    runOps ⟨0, handle true⟩ [Op.loop, Op.startStream "/a/b".toList 0 0 7 true,
        Op.startStream "/a".toList 0 0 8 true, Op.stopStream 1, Op.cleanupFunc]
      = some (⟨2, ⟨true, [], [], true, false, false, true⟩⟩,
        [Action.streamCreate "/a/b".toList 0 0 7, Action.streamStart 7 true,
          Action.sourceSignal, Action.streamCreate "/a".toList 0 0 8,
          Action.streamStart 8 true, Action.sourceSignal, Action.sourceSignal,
          Action.stop_stream 7, Action.stop_stream_callback ["/a/b".toList],
          Action.stop_stream 8, Action.stop_stream_callback ["/a".toList]]) := by
  decide

/-- C27, amended: on a non-stopped handle whose registry is a map, for every pending-removal
list and every entry registered before a maintenance pass such that no pending id is
registered with a path that is a byte-wise prefix of the path of that entry, some entry
registered after the pass has a path that is a byte-wise prefix of its path. -/
theorem cleanupFunc_keeps_coverage_pending (h : Handle) (hrunning : h.stopped = false)
    (hkeys : KeysAscending h.stream_handles) (e : Int × StreamValue)
    (he : e ∈ h.stream_handles)
    (hfree : ∀ e' ∈ h.stream_handles, e'.1 ∈ h.streams_to_remove → ¬ e'.2.1 <+: e.2.1) :
    ∃ s ∈ (cleanupFunc h).1.stream_handles, s.2.1 <+: e.2.1 := by
  obtain ⟨s, hs, hsr, hsp⟩ := registry_coverage h.stream_handles hkeys e he
  exact ⟨s, (mem_cleanupFunc_registry h hrunning s).2
    ⟨hs, hsr, fun hpend => hfree s hs hpend hsp⟩, hsp⟩

theorem cleanupFunc_keeps_coverage_pending_witness :
    ∃ s ∈ (cleanupFunc ⟨true, [(0, "/a/b".toList, 7), (1, "/a".toList, 8), (2, "/c".toList, 9)],
        [2], true, false, false, true⟩).1.stream_handles,
      s.2.1 <+: (((0 : Int), ("/a/b".toList, (7 : StreamRef))) : Int × StreamValue).2.1 :=
  cleanupFunc_keeps_coverage_pending ⟨true, [(0, "/a/b".toList, 7), (1, "/a".toList, 8),
    (2, "/c".toList, 9)], [2], true, false, false, true⟩ rfl (by decide)
    (0, "/a/b".toList, 7) (by decide) (by decide)

/-! ## C28: a second maintenance pass -/

/-- C28: on a non-stopped handle whose registry is a map, a second maintenance pass run
directly after a first returns the handle the first pass left, registry included, and makes no
call: no platform stream is stopped and no stream-removed notice is emitted. -/
theorem cleanupFunc_idempotent (h : Handle) (hrunning : h.stopped = false)
    (hkeys : KeysAscending h.stream_handles) :
    cleanupFunc (cleanupFunc h).1 = ((cleanupFunc h).1, []) := by
  have hh : (cleanupFunc h).1 = { h with
      streams_to_remove := [],
      stream_handles := h.stream_handles.filter (fun e =>
        !(redundantIds (h.stream_handles.map (fun e => (e.1, e.2.1))) ++
          h.streams_to_remove).contains e.1) } := by
    rw [cleanupFunc_running h hrunning,
      removeIds_handle _ { h with streams_to_remove := [] } hrunning]
  have hrun' : (cleanupFunc h).1.stopped = false := by rw [hh]; exact hrunning
  have hpend' : (cleanupFunc h).1.streams_to_remove = [] := by rw [hh]
  have hkeys' : KeysAscending (cleanupFunc h).1.stream_handles := by
    rw [hh]
    exact keysAscending_filter _ _ hkeys
  have hnodup : (cleanupFunc h).1.stream_handles.Nodup := by
    unfold KeysAscending at hkeys'
    exact hkeys'.imp (fun hlt heq => by rw [heq] at hlt; exact lt_irrefl _ hlt)
  have hpw : ((cleanupFunc h).1.stream_handles.map (fun e => (e.1, e.2.1))).Pairwise
      (fun l r => ¬ l.2 <+: r.2 ∧ ¬ r.2 <+: l.2) := by
    rw [List.pairwise_map]
    apply hnodup.pairwise_of_forall_ne
    intro a ha b hb hne
    obtain ⟨h1, r1, _⟩ := (mem_cleanupFunc_registry h hrunning a).1 ha
    obtain ⟨h2, r2, _⟩ := (mem_cleanupFunc_registry h hrunning b).1 hb
    exact ⟨survivors_not_nested h.stream_handles hkeys a b h1 h2 r1 r2 hne,
      survivors_not_nested h.stream_handles hkeys b a h2 h1 r2 r1 (Ne.symm hne)⟩
  rw [cleanupFunc_running _ hrun', redundantIds_nil _ hpw, hpend']
  simp only [List.append_nil, removeIds]
  congr 1
  generalize (cleanupFunc h).1 = h' at hpend'
  obtain ⟨c, reg, pend, st, sp, cl, cb⟩ := h'
  simp only at hpend'
  subst hpend'
  rfl

theorem cleanupFunc_idempotent_witness :
    cleanupFunc (cleanupFunc ⟨true, [(0, "/a/b".toList, 7), (1, "/a".toList, 8),
        (2, "/c".toList, 9)], [2, 2], true, false, false, true⟩).1
      = ((cleanupFunc ⟨true, [(0, "/a/b".toList, 7), (1, "/a".toList, 8),
        (2, "/c".toList, 9)], [2, 2], true, false, false, true⟩).1, []) :=
  cleanupFunc_idempotent ⟨true, [(0, "/a/b".toList, 7), (1, "/a".toList, 8),
    (2, "/c".toList, 9)], [2, 2], true, false, false, true⟩ rfl (by decide)

/-! ## C23: the locks held while a Java callback runs -/

theorem sinkCallsHeld_sinks (held : List Mutex) (xs : List JniAction) (rest : List LockEvent) :
    sinkCallsHeld held (xs.map LockEvent.sink ++ rest)
      = xs.map (fun a => (a, held)) ++ sinkCallsHeld held rest := by
  induction xs with
  | nil => rfl
  | cons a as ih => simp [sinkCallsHeld, ih]

/-- C23, as stated, fails: for a batch of one event on a handle that is not stopped, the Java
event callback is called while the loop thread holds `runloop_mutex`; and in a maintenance pass
that removes a pending id the Java stream-removed callback is called while it holds both
`runloop_mutex` and `mutex`. -/
theorem event_callback_under_lock_counterexample :
    sinkCallsHeld [] (defaultCallbackLocks (fun _ => false)
        ⟨true, [], [], true, false, false, true⟩ false (1, ["/x".toList], [1]))
      = [(JniAction.callbackApply "/x".toList 1, [Mutex.runloop_mutex])] ∧
    sinkCallsHeld [] (cleanupFuncLocks (fun _ => false)
        ⟨true, [(0, "/a".toList, 7)], [0], true, false, false, true⟩ false)
      = [(JniAction.pathCallbackApply "/a".toList, [Mutex.runloop_mutex, Mutex.mutex])] := by
  decide

/-- C23, amended: with the JNI adapter installed, every call of the Java event callback made
from `defaultCallback` is made while the loop thread holds `runloop_mutex` and not `mutex`, and
every call of the Java stream-removed callback made from `cleanupFunc` is made while it holds
both `runloop_mutex` and `mutex`. -/
theorem java_callbacks_run_under_locks (raises : Path × Int → Bool)
    (raisesPath : Path → Bool) (h : Handle) (pending : Bool)
    (b : Nat × List Path × List Nat) :
    (∀ c ∈ sinkCallsHeld [] (defaultCallbackLocks raises h pending b),
      c.2 = [Mutex.runloop_mutex]) ∧
    (∀ c ∈ sinkCallsHeld [] (cleanupFuncLocks raisesPath h pending),
      c.2 = [Mutex.runloop_mutex, Mutex.mutex]) := by
  constructor
  · intro c hc
    simp only [defaultCallbackLocks, sinkCallsHeld, sinkCallsHeld_sinks, List.mem_append,
      List.mem_map, List.not_mem_nil, or_false] at hc
    obtain ⟨a, _, rfl⟩ := hc
    rfl
  · intro c hc
    cases hs : h.stopped with
    | true =>
      have heq : sinkCallsHeld [] (cleanupFuncLocks raisesPath h pending) = [] := by
        simp [cleanupFuncLocks, hs, sinkCallsHeld]
      rw [heq] at hc
      simp at hc
    | false =>
      have heq : sinkCallsHeld [] (cleanupFuncLocks raisesPath h pending)
          = (jniDispatch (fun _ => false) raisesPath h pending (cleanupFunc h).2).2.map
              (fun a => (a, [Mutex.runloop_mutex, Mutex.mutex])) := by
        have hl : cleanupFuncLocks raisesPath h pending
            = LockEvent.acquire Mutex.mutex :: LockEvent.acquire Mutex.runloop_mutex ::
              ((jniDispatch (fun _ => false) raisesPath h pending (cleanupFunc h).2).2.map
                LockEvent.sink ++
                [LockEvent.release Mutex.mutex, LockEvent.release Mutex.runloop_mutex]) := by
          simp [cleanupFuncLocks, hs]
        rw [hl]
        simp only [sinkCallsHeld, sinkCallsHeld_sinks, List.append_nil]
      rw [heq] at hc
      obtain ⟨a, _, rfl⟩ := List.mem_map.1 hc
      rfl

/-! ## C30: the Windows directory lister -/

namespace NativeDirectoryLister

theorem nextFile_first (h : Handle) (hfirst : h.first = true) :
    nextFile h = (some h.ffd, { h with first := false }) := by
  simp [nextFile, hfirst]

theorem nextFile_advance (h : Handle) (e : WIN32_FIND_DATAW) (rest : List WIN32_FIND_DATAW)
    (lastError : Int) (hfirst : h.first = false) (hsearch : h.handle = some ⟨e :: rest, lastError⟩) :
    nextFile h = (some e, { h with handle := some ⟨rest, lastError⟩, ffd := e }) := by
  simp [nextFile, hfirst, hsearch, FindNextFileW]

theorem nextFile_exhausted (h : Handle) (lastError : Int) (hfirst : h.first = false)
    (hsearch : h.handle = some ⟨[], lastError⟩) :
    nextFile h = (none, { h with err := lastError }) := by
  obtain ⟨ffd, handle, first, err⟩ := h
  simp only at hfirst hsearch
  subst hfirst hsearch
  simp [nextFile, FindNextFileW]

theorem nextFiles_advance (n : Nat) (h : Handle) (remaining : List WIN32_FIND_DATAW)
    (lastError : Int) (hfirst : h.first = false) (hsearch : h.handle = some ⟨remaining, lastError⟩)
    (hn : n ≤ remaining.length) :
    (nextFiles n h).1 = (remaining.take n).map some ∧
    (nextFiles n h).2.first = false ∧
    (nextFiles n h).2.handle = some ⟨remaining.drop n, lastError⟩ ∧
    (nextFiles n h).2.err = h.err := by
  induction n generalizing h remaining with
  | zero => simp [nextFiles, hfirst, hsearch]
  | succ k ih =>
    cases remaining with
    | nil => simp at hn
    | cons e rest =>
      have hstep := nextFile_advance h e rest lastError hfirst hsearch
      have hk : k ≤ rest.length := by simpa using hn
      obtain ⟨i1, i2, i3, i4⟩ := ih { h with handle := some ⟨rest, lastError⟩, ffd := e } rest
        hfirst rfl hk
      simp only [nextFiles, hstep, List.take_succ_cons, List.map_cons, List.drop_succ_cons]
      exact ⟨by rw [i1], i2, i3, i4⟩

/-- C30: for a handle whose `openDir` succeeded, `FindFirstFileExW` having fetched `e0` and the
search still holding `rest`: the first `nextFile` returns `e0` and leaves the search where it
was; a later call on a search with a next entry takes exactly that entry off the search and
returns it; `n` calls, for `n` up to the number of entries, return the first `n` entries in
order, none skipped and none repeated; and the call after the last entry returns 0 and stores
in `err` the code reported by the platform. -/
theorem nextFile_enumerates (alloc e0 : WIN32_FIND_DATAW) (rest : List WIN32_FIND_DATAW)
    (lastError openError : Int) (n : Nat) (hn : n ≤ rest.length + 1) :
    nextFile (openDir alloc (some (e0, ⟨rest, lastError⟩)) openError)
      = (some e0, ⟨e0, some ⟨rest, lastError⟩, false, ERROR_SUCCESS⟩) ∧
    (∀ (h : Handle) e remaining code, h.first = false →
      h.handle = some ⟨e :: remaining, code⟩ →
      nextFile h = (some e, { h with handle := some ⟨remaining, code⟩, ffd := e })) ∧
    (nextFiles n (openDir alloc (some (e0, ⟨rest, lastError⟩)) openError)).1
      = ((e0 :: rest).take n).map some ∧
    (nextFile (nextFiles (rest.length + 1)
        (openDir alloc (some (e0, ⟨rest, lastError⟩)) openError)).2).1 = none ∧
    (nextFile (nextFiles (rest.length + 1)
        (openDir alloc (some (e0, ⟨rest, lastError⟩)) openError)).2).2.err = lastError := by
  have hopen : openDir alloc (some (e0, ⟨rest, lastError⟩)) openError
      = ⟨e0, some ⟨rest, lastError⟩, true, ERROR_SUCCESS⟩ := rfl
  have hfirst : nextFile (openDir alloc (some (e0, ⟨rest, lastError⟩)) openError)
      = (some e0, ⟨e0, some ⟨rest, lastError⟩, false, ERROR_SUCCESS⟩) := by
    rw [hopen]
    simp [nextFile]
  have hall : ∀ k, k ≤ rest.length →
      (nextFiles (k + 1) (openDir alloc (some (e0, ⟨rest, lastError⟩)) openError)).1
        = ((e0 :: rest).take (k + 1)).map some ∧
      (nextFiles (k + 1) (openDir alloc (some (e0, ⟨rest, lastError⟩)) openError)).2.first
        = false ∧
      (nextFiles (k + 1) (openDir alloc (some (e0, ⟨rest, lastError⟩)) openError)).2.handle
        = some ⟨rest.drop k, lastError⟩ := by
    intro k hk
    obtain ⟨i1, i2, i3, _⟩ := nextFiles_advance k
      ⟨e0, some ⟨rest, lastError⟩, false, ERROR_SUCCESS⟩ rest lastError rfl rfl hk
    simp only [nextFiles, hfirst, List.take_succ_cons, List.map_cons]
    exact ⟨by rw [i1], i2, i3⟩
  refine ⟨hfirst, fun h e remaining code h1 h2 => nextFile_advance h e remaining code h1 h2,
    ?_, ?_, ?_⟩
  · cases n with
    | zero => simp [nextFiles]
    | succ k => exact (hall k (by omega)).1
  · obtain ⟨_, h2, h3⟩ := hall rest.length (le_refl _)
    rw [List.drop_length] at h3
    rw [nextFile_exhausted _ lastError h2 h3]
  · obtain ⟨_, h2, h3⟩ := hall rest.length (le_refl _)
    rw [List.drop_length] at h3
    rw [nextFile_exhausted _ lastError h2 h3]

theorem nextFile_enumerates_witness :
    (nextFiles 2 (openDir ⟨0, []⟩ (some (⟨16, ".".toList⟩,
        ⟨[⟨16, "..".toList⟩, ⟨32, "a.txt".toList⟩], 18⟩)) 0)).1
      = (([⟨16, ".".toList⟩, ⟨16, "..".toList⟩, ⟨32, "a.txt".toList⟩] :
          List WIN32_FIND_DATAW).take 2).map some :=
  (nextFile_enumerates ⟨0, []⟩ ⟨16, ".".toList⟩ [⟨16, "..".toList⟩, ⟨32, "a.txt".toList⟩]
    18 0 2 (by decide)).2.2.1

end NativeDirectoryLister

end Swoval
